import Mathlib

/-!
Verification of the core data structures of `macro_econ`:
the hierarchical series tree (`macro_econ/series/node.py`) and the
parquet cache store (`macro_econ/cache/store.py`).

Two embeddings of the tree are used.

* A pure inductive tree (`SeriesNode`) for the traversal operations
  (`walk`, `leaves`, `find`, `is_leaf`, `to_dict`), which neither read the
  `parent` back-pointer nor mutate the tree.
* An explicit heap of node records addressed by ids (`Heap`), which models
  the Python object graph with its mutable `parent`/`level` fields, for
  `__post_init__`, `add_child` and `path`, where parent pointers and
  aliasing are essential.

The cache store is modelled as a pure function over an explicit file
system (`FS`) together with an explicit current time; `json.load` failure
on a corrupt metadata file is modelled by the `Except` error channel.
`make_key` is modelled down to the byte level, including an executable
SHA-256.
-/

namespace MacroEcon

/-- One provider source of a series, from the `SeriesSource` dataclass:
`source` (provider name), `series_id`, and the provider-specific `extra`
parameters (a dict, kept here as an association list of JSON values). -/
inductive JsonV : Type where
  | str : String → JsonV
  | num : Int → JsonV
  | arr : List JsonV → JsonV
  | obj : List (String × JsonV) → JsonV

structure SeriesSource where
  source : String
  series_id : String
  extra : List (String × JsonV) := []

/-- A node of the series tree, from the `SeriesNode` dataclass, without the
`parent` back-pointer (the traversal operations verified over this type
never read it; the heap model below carries it). -/
inductive SeriesNode : Type where
  | mk : (name : String) → (code : String) → (sources : List SeriesSource) →
      (children : List SeriesNode) → (description : String) → (level : Nat) →
      SeriesNode

def SeriesNode.name : SeriesNode → String
  | .mk n _ _ _ _ _ => n

def SeriesNode.code : SeriesNode → String
  | .mk _ c _ _ _ _ => c

def SeriesNode.sources : SeriesNode → List SeriesSource
  | .mk _ _ s _ _ _ => s

def SeriesNode.children : SeriesNode → List SeriesNode
  | .mk _ _ _ ch _ _ => ch

def SeriesNode.description : SeriesNode → String
  | .mk _ _ _ _ d _ => d

def SeriesNode.level : SeriesNode → Nat
  | .mk _ _ _ _ _ l => l

/-- Python `is_leaf`: `len(self.children) == 0`. -/
def SeriesNode.is_leaf (t : SeriesNode) : Bool :=
  t.children.length == 0

mutual

/-- Python `walk()`: pre-order traversal, `yield self` then `yield from child.walk()`
for each child in stored order. -/
def SeriesNode.walk : SeriesNode → List SeriesNode
  | .mk n c s ch d l => .mk n c s ch d l :: walkList ch

def walkList : List SeriesNode → List SeriesNode
  | [] => []
  | t :: ts => t.walk ++ walkList ts

end

mutual

/-- Python `leaves()`: `[self]` if leaf, else concatenation of `child.leaves()`. -/
def SeriesNode.leaves : SeriesNode → List SeriesNode
  | .mk n c s ch d l =>
    if (SeriesNode.mk n c s ch d l).is_leaf then [.mk n c s ch d l]
    else leavesList ch

def leavesList : List SeriesNode → List SeriesNode
  | [] => []
  | t :: ts => t.leaves ++ leavesList ts

end

mutual

/-- Python `find(code)`: return `self` if `self.code == code`, else the first
non-`None` result of `child.find(code)` over children in stored order. -/
def SeriesNode.find : SeriesNode → String → Option SeriesNode
  | .mk n c s ch d l, code =>
    if c = code then some (.mk n c s ch d l) else findList ch code

def findList : List SeriesNode → String → Option SeriesNode
  | [], _ => none
  | t :: ts, code =>
    match t.find code with
    | some found => some found
    | none => findList ts code

end

/-- Python `get_source(source_name)`: first source whose `source` field matches. -/
def SeriesNode.get_source (t : SeriesNode) (source_name : String) :
    Option SeriesSource :=
  t.sources.find? (fun s => s.source == source_name)

/-- Serialization of one `SeriesSource` inside `to_dict`: the literal dict
`{"source": s.source, "series_id": s.series_id, "extra": s.extra}`. -/
def sourceToDict (s : SeriesSource) : JsonV :=
  .obj [("source", .str s.source), ("series_id", .str s.series_id),
        ("extra", .obj s.extra)]

mutual

/-- Python `to_dict()`: base dict of name/code/level/description/sources, and a
`children` key added only when `self.children` is non-empty. -/
def SeriesNode.to_dict : SeriesNode → JsonV
  | .mk n c s ch d l =>
    .obj ([("name", .str n), ("code", .str c), ("level", .num (l : Int)),
           ("description", .str d),
           ("sources", .arr (s.map sourceToDict))] ++
      (if ch.length == 0 then [] else [("children", .arr (toDictList ch))]))

def toDictList : List SeriesNode → List JsonV
  | [] => []
  | t :: ts => t.to_dict :: toDictList ts

end

mutual

/-- Pre-order list of positions (paths of child indices) of a tree. -/
def positions : SeriesNode → List (List Nat)
  | .mk _ _ _ ch _ _ => [] :: positionsList 0 ch

def positionsList : Nat → List SeriesNode → List (List Nat)
  | _, [] => []
  | i, t :: ts => (positions t).map (i :: ·) ++ positionsList (i + 1) ts

end

/-- The node of a tree at a position, if the position is valid. -/
def nodeAt? : SeriesNode → List Nat → Option SeriesNode
  | t, [] => some t
  | t, i :: p =>
    match t.children.get? i with
    | none => none
    | some c => nodeAt? c p

/-! ## Heap model of the Python object graph

`SeriesNode` objects are mutable and linked by both `children` and
`parent` references, so `__post_init__`, `add_child` and `path` are
modelled over an explicit heap: node ids mapped to records whose
`children` and `parent` fields hold ids. Recursions that the Python code
performs over the live object graph take an explicit fuel; every theorem
states how much fuel makes the model exact (any fuel at least the height
of the subtree being traversed). -/

structure NodeData where
  name : String
  code : String
  sources : List SeriesSource
  children : List Nat
  description : String
  level : Nat
  parent : Option Nat

abbrev Heap := Nat → Option NodeData

/-- Overwrite the record of node `i`. -/
def hset (h : Heap) (i : Nat) (d : NodeData) : Heap :=
  fun j => if j = i then some d else h j

/-- Python `node.parent = p; node.level = lv` on node `i` (no-op on a dangling id,
which cannot occur for a real Python object). -/
def setPL (h : Heap) (i : Nat) (p : Option Nat) (lv : Nat) : Heap :=
  match h i with
  | none => h
  | some d => hset h i { d with parent := p, level := lv }

/-- Read `node.level` (0 for a dangling id, which cannot occur). -/
def levelOfH (h : Heap) (i : Nat) : Nat :=
  match h i with
  | none => 0
  | some d => d.level

/-- Read `node.parent`. -/
def parentOfH (h : Heap) (i : Nat) : Option Nat :=
  match h i with
  | none => none
  | some d => d.parent

/-- The `children` field of a node, the only field `__post_init__` reads
besides `level` and the only one it never writes. -/
def kidsView (h : Heap) (i : Nat) : Option (List Nat) :=
  (h i).map NodeData.children

/-- The `for child in self.children` loop of `__post_init__`: set
`child.parent` to self, set `child.level` to `self.level + 1` (re-reading
`self.level` at each iteration, as the Python attribute access does), then
recurse via `rec` into the child, threading the heap left to right. -/
def postKidsGo (rec : Heap → Nat → Heap) : Heap → Nat → List Nat → Heap
  | h, _, [] => h
  | h, i, c :: cs =>
    postKidsGo rec (rec (setPL h c (some i) (levelOfH h i + 1)) c) i cs

/-- Python `__post_init__` on node `i` (fuel bounds the recursion depth; any fuel
at least the height of the subtree is exact). -/
def postInitH : Nat → Heap → Nat → Heap
  | 0, h, _ => h
  | fuel + 1, h, i =>
    match h i with
    | none => h
    | some d => postKidsGo (fun hh cc => postInitH fuel hh cc) h i d.children

/-- Python `self.children.append(child)` on node `s`. -/
def appendChildH (h : Heap) (s c : Nat) : Heap :=
  match h s with
  | none => h
  | some d => hset h s { d with children := d.children ++ [c] }

/-- Python `add_child(child)`: `child.parent = self; child.level = self.level + 1;
child.__post_init__(); self.children.append(child)`. The Python method
has no failure path: it always returns, whatever the two nodes are. -/
def add_childH (fuel : Nat) (h : Heap) (s c : Nat) : Heap :=
  let h1 := setPL h c (some s) (levelOfH h s + 1)
  let h2 := postInitH fuel h1 c
  appendChildH h2 s c

/-- The child loop of `walk()` over the heap. -/
def walkKidsGo (rec : Heap → Nat → List Nat) : Heap → List Nat → List Nat
  | _, [] => []
  | h, c :: cs => rec h c ++ walkKidsGo rec h cs

/-- Python `walk()` over the heap: pre-order list of ids. -/
def walkH : Nat → Heap → Nat → List Nat
  | 0, _, _ => []
  | fuel + 1, h, i =>
    match h i with
    | none => []
    | some d => i :: walkKidsGo (fun hh cc => walkH fuel hh cc) h d.children

/-- The `while node is not None` loop of `path()`, collecting codes from a
node up through its `parent` chain (fuel bounds the loop; any fuel larger
than the node's depth is exact). -/
def pathUpH : Nat → Heap → Nat → List String
  | 0, _, _ => []
  | fuel + 1, h, i =>
    match h i with
    | none => []
    | some d =>
      d.code ::
        (match d.parent with
         | none => []
         | some p => pathUpH fuel h p)

/-- Python `path()`: collect codes up the parent chain, then reverse. -/
def pathH (fuel : Nat) (h : Heap) (i : Nat) : List String :=
  (pathUpH fuel h i).reverse

/-- Follow `parent` exactly `k` times. -/
def iterParentH (h : Heap) : Nat → Nat → Option Nat
  | 0, i => some i
  | k + 1, i =>
    match parentOfH h i with
    | none => none
    | some p => iterParentH h k p

/-- Read `node.code` ("" for a dangling id, which cannot occur). -/
def codeOfH (h : Heap) (i : Nat) : String :=
  match h i with
  | none => ""
  | some d => d.code

/-! ### Shape trees

An `ITree` records which heap ids form a tree and how they nest; it is the
specification-side skeleton against which heap operations are verified. -/

inductive ITree : Type where
  | node : Nat → List ITree → ITree

def ITree.topId : ITree → Nat
  | .node i _ => i

def topIds (ts : List ITree) : List Nat :=
  ts.map ITree.topId

mutual

/-- Pre-order ids of a shape tree. -/
def ITree.ids : ITree → List Nat
  | .node i cs => i :: idsList cs

def idsList : List ITree → List Nat
  | [] => []
  | t :: ts => t.ids ++ idsList ts

end

/-- Ids of the strict descendants. -/
def descIds : ITree → List Nat
  | .node _ cs => idsList cs

mutual

/-- The heap realizes the shape tree: every id is live and its `children`
field lists exactly the roots of the child shape trees. -/
def shapeOK : Heap → ITree → Bool
  | h, .node i cs =>
    match h i with
    | none => false
    | some d => decide (d.children = topIds cs) && shapeAll h cs

def shapeAll : Heap → List ITree → Bool
  | _, [] => true
  | h, t :: ts => shapeOK h t && shapeAll h ts

end

mutual

def ITree.height : ITree → Nat
  | .node _ cs => heightList cs + 1

def heightList : List ITree → Nat
  | [] => 0
  | t :: ts => max t.height (heightList ts)

end

mutual

/-- Expected `(id, parent id, level)` of every strict descendant after a
fix-up pass whose root sits at the given level. -/
def assignBelow : ITree → Nat → List (Nat × Nat × Nat)
  | .node i cs, lv => assignKids cs i lv

def assignKids : List ITree → Nat → Nat → List (Nat × Nat × Nat)
  | [], _, _ => []
  | t :: ts, p, lv =>
    (t.topId, p, lv + 1) :: (assignBelow t (lv + 1) ++ assignKids ts p lv)

end

mutual

/-- For every node of the shape tree, the id chain from that node up to
the root and then along `acc` (so with `acc = []`, the reversed root
path); listed in pre-order of the nodes. -/
def chainsFrom : ITree → List Nat → List (List Nat)
  | .node i cs, acc => (i :: acc) :: chainsList cs (i :: acc)

def chainsList : List ITree → List Nat → List (List Nat)
  | [], _ => []
  | t :: ts, acc => chainsFrom t acc ++ chainsList ts acc

end

/-- An id chain is correctly linked in the heap: each entry is live, its
level is the length of the rest of the chain, and its parent is the next
entry (none at the end of the chain). -/
def goodChain (h : Heap) : List Nat → Prop
  | [] => True
  | j :: rest =>
    match h j with
    | none => False
    | some d => d.level = rest.length ∧ d.parent = rest.head? ∧ goodChain h rest

def decGoodChain (h : Heap) : (c : List Nat) → Decidable (goodChain h c)
  | [] => isTrue trivial
  | j :: rest =>
    match hj : h j with
    | none => isFalse (by simp [goodChain, hj])
    | some d =>
      have : Decidable (goodChain h rest) := decGoodChain h rest
      decidable_of_iff (d.level = rest.length ∧ d.parent = rest.head? ∧ goodChain h rest)
        (by simp [goodChain, hj])

attribute [instance] decGoodChain

mutual

/-- Attach a new subtree as the last child of the node with id `j`. -/
def graft : ITree → Nat → ITree → ITree
  | .node i cs, j, tc =>
    if i = j then .node i (cs ++ [tc]) else .node i (graftList cs j tc)

def graftList : List ITree → Nat → ITree → List ITree
  | [], _, _ => []
  | t :: ts, j, tc => graft t j tc :: graftList ts j tc

end

/-! ## Cache store (`macro_econ/cache/store.py`)

`ParquetCacheStore` reads and writes a directory of `<key>.parquet` and
`<key>.meta.json` files. The file system is a map from path to content; a
metadata file holds either a parsed JSON object, or bytes `json.load`
cannot parse (`garbage`). `get` is rendered with an `Except` channel for
the exceptions the Python code can raise; a computation that the code
completes normally is `.ok`. Times are integers (unix seconds). -/

inductive MVal : Type where
  | num : Int → MVal
  | str : String → MVal
  deriving DecidableEq, Repr

abbrev MetaObj := List (String × MVal)

/-- Python dict lookup (keys of a dict are unique). -/
def metaLookup : MetaObj → String → Option MVal
  | [], _ => none
  | (k, v) :: rest, key => if k = key then some v else metaLookup rest key

/-- Python `d[k] = v` on a dict: replace in place if the key exists, else append. -/
def dictUpsert : MetaObj → String → MVal → MetaObj
  | [], k, v => [(k, v)]
  | (k', v') :: rest, k, v =>
    if k' = k then (k', v) :: rest else (k', v') :: dictUpsert rest k v

inductive FileContent (α : Type) : Type where
  | parquet : α → FileContent α
  | jsonFile : MetaObj → FileContent α
  | garbage : FileContent α
  deriving DecidableEq

/-- File system: path to content (`none` = file does not exist). -/
def FS (α : Type) : Type := String → Option (FileContent α)

inductive CacheErr : Type where
  /-- Python `json.load` raised: metadata unreadable or not valid JSON. -/
  | jsonDecode
  /-- Python `time.time() - meta.get("fetched_at", 0)` raised: non-numeric value. -/
  | typeErr
  /-- Python `pd.read_parquet` raised: data file not readable parquet. -/
  | parquetErr
  deriving DecidableEq, Repr

/-- Python `self._data_path(key)`: `cache_dir / f"{key}.parquet"`. -/
def data_path (key : String) : String := key ++ ".parquet"

/-- Python `self._meta_path(key)`: `cache_dir / f"{key}.meta.json"`. -/
def meta_path (key : String) : String := key ++ ".meta.json"

/-- Python `ParquetCacheStore.get`: return `None` if either file is missing;
`json.load` the metadata (raising on garbage); return `None` if
`now - meta.get("fetched_at", 0) > ttl`; else `pd.read_parquet`. -/
def cacheGet (ttl : Int) (fs : FS α) (now : Int) (key : String) :
    Except CacheErr (Option α) :=
  match fs (data_path key), fs (meta_path key) with
  | none, _ => .ok none
  | some _, none => .ok none
  | some dataC, some metaC =>
    match metaC with
    | .jsonFile m =>
      match (metaLookup m "fetched_at").getD (.num 0) with
      | .num fetched =>
        if now - fetched > ttl then .ok none
        else
          match dataC with
          | .parquet df => .ok (some df)
          | _ => .error .parquetErr
      | .str _ => .error .typeErr
    | _ => .error .jsonDecode

/-- Python `ParquetCacheStore.put`: write the parquet file, then write the
metadata `{"fetched_at": time.time(), "key": key, **extra_meta}` (a later
duplicate keyword overrides the value at its first position, as in a
Python dict literal). -/
def cachePut (fs : FS α) (now : Int) (key : String) (df : α)
    (extra : MetaObj) : FS α :=
  let fs1 : FS α := fun p => if p = data_path key then some (.parquet df) else fs p
  let meta := extra.foldl (fun m kv => dictUpsert m kv.1 kv.2)
    [("fetched_at", MVal.num now), ("key", MVal.str key)]
  fun p => if p = meta_path key then some (.jsonFile meta) else fs1 p

/-! ## Key derivation (`make_key`)

`make_key` serializes `{"source": source, "series_id": series_id,
**params}` with `json.dumps(..., sort_keys=True, default=str)` and takes
the first 16 hex characters of the SHA-256 of the UTF-8 bytes. The JSON
serializer and SHA-256 are reproduced executably below. A parameter value
is a JSON-native string or int, or any other object (`pother`), which
`default=str` turns into its `str()` form, serialized as a JSON string. -/

inductive PVal : Type where
  | pstr : String → PVal
  | pint : Int → PVal
  | pother : String → PVal
  deriving DecidableEq, Repr

/-- Hex digit for a nibble. -/
def hexDigit (n : Nat) : Char :=
  if n < 10 then Char.ofNat (48 + n) else Char.ofNat (87 + n)

/-- Python `\uXXXX` escape for a 16-bit code unit. -/
def uEscape (n : Nat) : List Char :=
  ['\\', 'u', hexDigit (n / 4096 % 16), hexDigit (n / 256 % 16),
   hexDigit (n / 16 % 16), hexDigit (n % 16)]

/-- Escape one character the way `json.dumps` (default `ensure_ascii=True`)
does inside a string literal. -/
def jsonEscapeChar (c : Char) : List Char :=
  if c = '"' then ['\\', '"']
  else if c = '\\' then ['\\', '\\']
  else if c = Char.ofNat 10 then ['\\', 'n']
  else if c = Char.ofNat 9 then ['\\', 't']
  else if c = Char.ofNat 13 then ['\\', 'r']
  else if c = Char.ofNat 8 then ['\\', 'b']
  else if c = Char.ofNat 12 then ['\\', 'f']
  else if c.val < 32 then uEscape c.toNat
  else if c.val < 127 then [c]
  else if c.toNat < 65536 then uEscape c.toNat
  else
    let v := c.toNat - 65536
    uEscape (55296 + v / 1024) ++ uEscape (56320 + v % 1024)

/-- A JSON string literal, quotes included. -/
def jsonQuote (s : String) : String :=
  String.mk ('"' :: (s.data.flatMap jsonEscapeChar ++ ['"']))

def renderPVal : PVal → String
  | .pstr s => jsonQuote s
  | .pint n => toString n
  | .pother s => jsonQuote s

/-- Lexicographic code-point comparison, the order in which Python
compares `str` keys under `sorted`/`sort_keys`. -/
def charListLe : List Char → List Char → Bool
  | [], _ => true
  | _ :: _, [] => false
  | x :: xs, y :: ys =>
    if x.toNat < y.toNat then true
    else if y.toNat < x.toNat then false
    else charListLe xs ys

def strLe (a b : String) : Bool :=
  charListLe a.data b.data

/-- Insertion sort of dict items by key (`sort_keys=True`). -/
def insertByKey (x : String × PVal) : List (String × PVal) → List (String × PVal)
  | [] => [x]
  | y :: ys => if strLe x.1 y.1 then x :: y :: ys else y :: insertByKey x ys

def sortByKey : List (String × PVal) → List (String × PVal)
  | [] => []
  | x :: xs => insertByKey x (sortByKey xs)

/-- Python `"k": v` items joined with `", "` (the default separators). -/
def renderItems : List (String × PVal) → String
  | [] => ""
  | [(k, v)] => jsonQuote k ++ ": " ++ renderPVal v
  | (k, v) :: rest => jsonQuote k ++ ": " ++ renderPVal v ++ ", " ++ renderItems rest

/-- Python `json.dumps(items, sort_keys=True, default=str)` for a flat dict. -/
def canonicalJson (items : List (String × PVal)) : String :=
  "\x7b" ++ renderItems (sortByKey items) ++ "\x7d"

/-- UTF-8 bytes of one character. -/
def charUtf8 (c : Char) : List Nat :=
  let v := c.toNat
  if v < 128 then [v]
  else if v < 2048 then [192 + v / 64, 128 + v % 64]
  else if v < 65536 then [224 + v / 4096, 128 + v / 64 % 64, 128 + v % 64]
  else [240 + v / 262144, 128 + v / 4096 % 64, 128 + v / 64 % 64, 128 + v % 64]

def strBytes (s : String) : List Nat :=
  s.data.flatMap charUtf8

/-! SHA-256, over lists of bytes (each a `Nat` below 256), all 32-bit
words represented as `Nat` reduced modulo `2 ^ 32`. -/

def w32 : Nat := 4294967296

def rotr32 (x n : Nat) : Nat :=
  ((x >>> n) ||| (x <<< (32 - n))) % w32

def sigmaBig0 (x : Nat) : Nat := rotr32 x 2 ^^^ rotr32 x 13 ^^^ rotr32 x 22
def sigmaBig1 (x : Nat) : Nat := rotr32 x 6 ^^^ rotr32 x 11 ^^^ rotr32 x 25
def sigmaSml0 (x : Nat) : Nat := rotr32 x 7 ^^^ rotr32 x 18 ^^^ (x >>> 3)
def sigmaSml1 (x : Nat) : Nat := rotr32 x 17 ^^^ rotr32 x 19 ^^^ (x >>> 10)

def chFun (x y z : Nat) : Nat := (x &&& y) ^^^ ((x ^^^ 4294967295) &&& z)
def majFun (x y z : Nat) : Nat := (x &&& y) ^^^ (x &&& z) ^^^ (y &&& z)

def shaK : List Nat :=
  [1116352408, 1899447441, 3049323471, 3921009573, 961987163, 1508970993,
   2453635748, 2870763221, 3624381080, 310598401, 607225278, 1426881987,
   1925078388, 2162078206, 2614888103, 3248222580, 3835390401, 4022224774,
   264347078, 604807628, 770255983, 1249150122, 1555081692, 1996064986,
   2554220882, 2821834349, 2952996808, 3210313671, 3336571891, 3584528711,
   113926993, 338241895, 666307205, 773529912, 1294757372, 1396182291,
   1695183700, 1986661051, 2177026350, 2456956037, 2730485921, 2820302411,
   3259730800, 3345764771, 3516065817, 3600352804, 4094571909, 275423344,
   430227734, 506948616, 659060556, 883997877, 958139571, 1322822218,
   1537002063, 1747873779, 1955562222, 2024104815, 2227730452, 2361852424,
   2428436474, 2756734187, 3204031479, 3329325298]

/-- SHA-256 padding: append `0x80`, zeros to 56 mod 64, then the 64-bit
big-endian bit length. -/
def shaPad (msg : List Nat) : List Nat :=
  let l := msg.length
  let zeros := (64 + 55 - l % 64) % 64
  let bitLen := l * 8
  msg ++ [128] ++ List.replicate zeros 0 ++
    [bitLen / 72057594037927936 % 256, bitLen / 281474976710656 % 256,
     bitLen / 1099511627776 % 256, bitLen / 4294967296 % 256,
     bitLen / 16777216 % 256, bitLen / 65536 % 256,
     bitLen / 256 % 256, bitLen % 256]

/-- Pack bytes into big-endian 32-bit words. -/
def toWords : List Nat → List Nat
  | b0 :: b1 :: b2 :: b3 :: rest =>
    (b0 * 16777216 + b1 * 65536 + b2 * 256 + b3) :: toWords rest
  | _ => []

/-- Extend 16 schedule words to 64. -/
def extendW (w : List Nat) : Nat → List Nat
  | 0 => w
  | n + 1 =>
    let w' := extendW w n
    let t := w'.length
    let a := w'.getD (t - 16) 0
    let b := w'.getD (t - 15) 0
    let c := w'.getD (t - 7) 0
    let d := w'.getD (t - 2) 0
    w' ++ [(sigmaSml1 d + c + sigmaSml0 b + a) % w32]

structure Sha8 where
  a : Nat
  b : Nat
  c : Nat
  d : Nat
  e : Nat
  f : Nat
  g : Nat
  h : Nat
  deriving DecidableEq, Repr

def shaInit : Sha8 :=
  ⟨1779033703, 3144134277, 1013904242, 2773480762,
   1359893119, 2600822924, 528734635, 1541459225⟩

def shaRound (s : Sha8) (k w : Nat) : Sha8 :=
  let t1 := (s.h + sigmaBig1 s.e + chFun s.e s.f s.g + k + w) % w32
  let t2 := (sigmaBig0 s.a + majFun s.a s.b s.c) % w32
  ⟨(t1 + t2) % w32, s.a, s.b, s.c, (s.d + t1) % w32, s.e, s.f, s.g⟩

def shaRounds : Sha8 → List Nat → List Nat → Sha8
  | s, k :: ks, w :: ws => shaRounds (shaRound s k w) ks ws
  | s, _, _ => s

def shaAdd (x y : Sha8) : Sha8 :=
  ⟨(x.a + y.a) % w32, (x.b + y.b) % w32, (x.c + y.c) % w32, (x.d + y.d) % w32,
   (x.e + y.e) % w32, (x.f + y.f) % w32, (x.g + y.g) % w32, (x.h + y.h) % w32⟩

/-- Process `n` 64-byte blocks of the padded message. -/
def shaBlocksGo : Nat → Sha8 → List Nat → Sha8
  | 0, s, _ => s
  | n + 1, s, bytes =>
    let sched := extendW (toWords (bytes.take 64)) 48
    shaBlocksGo n (shaAdd s (shaRounds s shaK sched)) (bytes.drop 64)

/-- Process the padded message (whose length is a multiple of 64), 64
bytes at a time. -/
def shaBlocks (s : Sha8) (bytes : List Nat) : Sha8 :=
  shaBlocksGo (bytes.length / 64) s bytes

/-- Eight hex characters of a 32-bit word, big-endian. -/
def word8hex (x : Nat) : List Char :=
  [hexDigit (x / 268435456 % 16), hexDigit (x / 16777216 % 16),
   hexDigit (x / 1048576 % 16), hexDigit (x / 65536 % 16),
   hexDigit (x / 4096 % 16), hexDigit (x / 256 % 16),
   hexDigit (x / 16 % 16), hexDigit (x % 16)]

/-- Python `hashlib.sha256(bytes).hexdigest()`: 64 hex characters. -/
def sha256hex (msg : List Nat) : List Char :=
  let s := shaBlocks shaInit (shaPad msg)
  word8hex s.a ++ word8hex s.b ++ word8hex s.c ++ word8hex s.d ++
    word8hex s.e ++ word8hex s.f ++ word8hex s.g ++ word8hex s.h

/-- Python `make_key(source, series_id, **params)`: canonical sorted JSON of
`{"source": source, "series_id": series_id, **params}`, SHA-256, first 16
hex characters. -/
def make_key (source series_id : String) (params : List (String × PVal)) :
    String :=
  let canonical := canonicalJson
    (("source", PVal.pstr source) :: ("series_id", PVal.pstr series_id) :: params)
  String.mk ((sha256hex (strBytes canonical)).take 16)

/-! ## Auxiliary definitions used only to state theorems -/

/-- Order on dict items used by `sort_keys=True`. -/
def keyLe (a b : String × PVal) : Prop :=
  strLe a.1 b.1 = true

/-- Keys of a JSON object, in order. -/
def objKeys : JsonV → List String
  | .obj l => l.map Prod.fst
  | _ => []

def jsonLookupList : List (String × JsonV) → String → Option JsonV
  | [], _ => none
  | (k', v) :: rest, k => if k' = k then some v else jsonLookupList rest k

/-- Assoc lookup in a JSON object. -/
def jsonLookup : JsonV → String → Option JsonV
  | .obj l, k => jsonLookupList l k
  | _, _ => none

/-- Modelled from the spec: the `{provider, series_id, params}` triple that
section 6 of the spec gives as the serialized shape of one source, with
the spec's field names read as the literal JSON keys. Stated only to be
compared against `sourceToDict`, the shape the code actually emits. -/
def sourceTripleSpec (s : SeriesSource) : JsonV :=
  .obj [("provider", .str s.source), ("series_id", .str s.series_id),
        ("params", .obj s.extra)]

/-- The heap realizes the shape tree with consistent levels and parent
pointers throughout: the chain from every node up to the root is
correctly linked, ending at the root with no parent and level 0. -/
def consistentOn (h : Heap) (t : ITree) : Prop :=
  ∀ c ∈ chainsFrom t [], goodChain h c

instance (h : Heap) (t : ITree) : Decidable (consistentOn h t) :=
  List.decidableBAll (goodChain h) (chainsFrom t [])

/-- The parent and level of a node — the view `path`, the level/parent
invariant and the ancestry walk depend on. -/
def plView (h : Heap) (i : Nat) : Option (Option Nat × Nat) :=
  (h i).map (fun d => (d.parent, d.level))

instance {ε α : Type} [DecidableEq ε] [DecidableEq α] :
    DecidableEq (Except ε α) := fun a b =>
  match a, b with
  | .ok x, .ok y => decidable_of_iff (x = y) (by simp)
  | .error x, .error y => decidable_of_iff (x = y) (by simp)
  | .ok _, .error _ => isFalse (fun h => Except.noConfusion h)
  | .error _, .ok _ => isFalse (fun h => Except.noConfusion h)

/-- A two-node heap: node 0 (code "R") is the root, node 1 (code "C") its
only child — the fixture on which `add_child` is asked to re-attach the
root below its own descendant. -/
def cycleHeap : Heap := fun j =>
  if j = 0 then some ⟨"Root", "R", [], [1], "", 0, none⟩
  else if j = 1 then some ⟨"Child", "C", [], [], "", 1, some 0⟩
  else none

/-- A file system holding, for key "k", a readable parquet data file and a
metadata file whose bytes `json.load` cannot parse. -/
def corruptFS : FS Nat := fun p =>
  if p = "k.parquet" then some (.parquet 37)
  else if p = "k.meta.json" then some .garbage
  else none

/-! # Theorems -/

/-! ## Cache store -/

theorem data_path_ne_meta_path (key : String) : data_path key ≠ meta_path key := by
  intro h
  have h1 := congrArg String.length h
  rw [data_path, meta_path, String.length_append, String.length_append] at h1
  have e1 : (".parquet" : String).length = 8 := rfl
  have e2 : (".meta.json" : String).length = 10 := rfl
  rw [e1, e2] at h1
  omega

theorem metaLookup_dictUpsert_ne (m : MetaObj) (k' : String) (v : MVal)
    (k : String) (hne : k' ≠ k) :
    metaLookup (dictUpsert m k' v) k = metaLookup m k := by
  induction m with
  | nil => simp [dictUpsert, metaLookup, hne]
  | cons kv rest ih =>
    obtain ⟨k0, v0⟩ := kv
    by_cases h1 : k0 = k'
    · subst h1
      simp [dictUpsert, metaLookup, hne]
    · by_cases h2 : k0 = k
      · simp [dictUpsert, h1, metaLookup, h2, Ne.symm hne]
      · simp [dictUpsert, h1, metaLookup, h2, ih]

theorem metaLookup_foldl_upsert (extra : MetaObj) (m : MetaObj) (k : String)
    (hk : ∀ kv ∈ extra, kv.1 ≠ k) :
    metaLookup (extra.foldl (fun acc kv => dictUpsert acc kv.1 kv.2) m) k =
      metaLookup m k := by
  induction extra generalizing m with
  | nil => rfl
  | cons kv rest ih =>
    rw [List.foldl_cons, ih _ (fun x hx => hk x (List.mem_cons_of_mem _ hx))]
    exact metaLookup_dictUpsert_ne m kv.1 kv.2 k (hk kv (List.mem_cons_self _ _))

theorem cachePut_data {α : Type} (fs : FS α) (now : Int) (key : String)
    (df : α) (extra : MetaObj) :
    (cachePut fs now key df extra) (data_path key) = some (.parquet df) := by
  simp [cachePut, data_path_ne_meta_path key]

theorem cachePut_meta {α : Type} (fs : FS α) (now : Int) (key : String)
    (df : α) (extra : MetaObj) :
    (cachePut fs now key df extra) (meta_path key) =
      some (.jsonFile (extra.foldl (fun acc kv => dictUpsert acc kv.1 kv.2)
        [("fetched_at", MVal.num now), ("key", MVal.str key)])) := by
  simp [cachePut]

theorem cachePut_fetched_at (now : Int) (key : String) (extra : MetaObj)
    (hk : ∀ kv ∈ extra, kv.1 ≠ "fetched_at") :
    metaLookup (extra.foldl (fun acc kv => dictUpsert acc kv.1 kv.2)
      [("fetched_at", MVal.num now), ("key", MVal.str key)]) "fetched_at" =
      some (MVal.num now) := by
  rw [metaLookup_foldl_upsert _ _ _ hk]
  rfl

theorem cacheGet_no_data {α : Type} (ttl : Int) (fs : FS α) (now : Int)
    (key : String) (hd : fs (data_path key) = none) :
    cacheGet ttl fs now key = .ok none := by
  simp [cacheGet, hd]

theorem cacheGet_no_meta {α : Type} (ttl : Int) (fs : FS α) (now : Int)
    (key : String) (hm : fs (meta_path key) = none) :
    cacheGet ttl fs now key = .ok none := by
  cases hd : fs (data_path key) <;> simp [cacheGet, hd, hm]

theorem cacheGet_meta_garbage {α : Type} (ttl : Int) (fs : FS α) (now : Int)
    (key : String) (dC : FileContent α)
    (hd : fs (data_path key) = some dC)
    (hm : fs (meta_path key) = some .garbage) :
    cacheGet ttl fs now key = .error .jsonDecode := by
  simp [cacheGet, hd, hm]

theorem cacheGet_of_meta_parsed {α : Type} (ttl : Int) (fs : FS α)
    (now : Int) (key : String) (df : α) (m : MetaObj) (f : Int)
    (hd : fs (data_path key) = some (.parquet df))
    (hm : fs (meta_path key) = some (.jsonFile m))
    (hf : metaLookup m "fetched_at" = some (.num f)) :
    cacheGet ttl fs now key =
      if now - f > ttl then .ok none else .ok (some df) := by
  simp [cacheGet, hd, hm, hf]

theorem cacheGet_no_fetched_at {α : Type} (ttl : Int) (fs : FS α)
    (now : Int) (key : String) (df : α) (m : MetaObj)
    (hd : fs (data_path key) = some (.parquet df))
    (hm : fs (meta_path key) = some (.jsonFile m))
    (hf : metaLookup m "fetched_at" = none) :
    cacheGet ttl fs now key =
      if now - 0 > ttl then .ok none else .ok (some df) := by
  simp [cacheGet, hd, hm, hf]

/-- Claim C2, counterexample: with the data file present and the metadata
file unparseable, `get` raises the `json.load` decode error instead of
returning the absent result: "never raises ... when the entry's metadata
cannot be read" is false of the code. -/
theorem claim_C2_counterexample :
    cacheGet 10 corruptFS 5 "k" = .error CacheErr.jsonDecode ∧
      cacheGet 10 corruptFS 5 "k" ≠ .ok none := by
  exact ⟨rfl, by decide⟩

/-- Claim C2, amended: `get(key)` returns the absent result (None) — and
never raises — when no entry exists (either file missing) and when the
entry is stale, the outcomes collapsing to the same absent result; but
when both files exist and the metadata cannot be parsed, the `json.load`
error propagates to the caller instead of an absent result. -/
theorem claim_C2_amended :
    ∀ (α : Type) (ttl : Int) (fs : FS α) (now : Int) (key : String),
    (fs (data_path key) = none → cacheGet ttl fs now key = .ok none) ∧
    (fs (meta_path key) = none → cacheGet ttl fs now key = .ok none) ∧
    (∀ (df : α) (m : MetaObj) (f : Int),
      fs (data_path key) = some (.parquet df) →
      fs (meta_path key) = some (.jsonFile m) →
      metaLookup m "fetched_at" = some (.num f) →
      now - f > ttl → cacheGet ttl fs now key = .ok none) ∧
    (∀ dC : FileContent α,
      fs (data_path key) = some dC →
      fs (meta_path key) = some .garbage →
      cacheGet ttl fs now key = .error CacheErr.jsonDecode) := by
  intro α ttl fs now key
  refine ⟨fun hd => cacheGet_no_data ttl fs now key hd,
    fun hm => cacheGet_no_meta ttl fs now key hm,
    fun df m f hd hm hf hstale => ?_,
    fun dC hd hm => cacheGet_meta_garbage ttl fs now key dC hd hm⟩
  rw [cacheGet_of_meta_parsed ttl fs now key df m f hd hm hf, if_pos hstale]

theorem claim_C2_amended_witness :
    ((fun _ => none : FS Nat) (data_path "k") = none ∧
      cacheGet 10 (fun _ => none : FS Nat) 5 "k" = .ok none) ∧
    (cacheGet 0 (cachePut (fun _ => none : FS Nat) 5 "k" 37 []) 7 "k" =
      .ok none) ∧
    (corruptFS (meta_path "k") = some .garbage ∧
      cacheGet 10 corruptFS 5 "k" = .error CacheErr.jsonDecode) := by
  refine ⟨⟨rfl, (claim_C2_amended Nat 10 (fun _ => none) 5 "k").1 rfl⟩, ?_, ?_⟩
  · exact (claim_C2_amended Nat 0 (cachePut (fun _ => none) 5 "k" 37 []) 7
      "k").2.2.1 37 [("fetched_at", .num 5), ("key", .str "k")] 5 rfl rfl rfl
      (by decide)
  · exact ⟨rfl, (claim_C2_amended Nat 10 corruptFS 5 "k").2.2.2
      (.parquet 37) rfl rfl⟩

/-- Claim C7: a cache entry is treated as fresh by `get` iff
`now - fetched_at ≤ ttl`, evaluated at read time: with both files present
and parsed metadata, `get` returns the data exactly when
`now - fetched_at ≤ ttl`; a store with `ttl = 0` misses once any positive
time has elapsed since `put`; a store with `ttl ≥ 0` hits immediately
after `put`. -/
theorem claim_C7 :
    ∀ (α : Type) (fs : FS α) (ttl now tp : Int) (key : String) (df : α)
      (m : MetaObj) (f : Int) (extra : MetaObj),
    (fs (data_path key) = some (.parquet df) →
      fs (meta_path key) = some (.jsonFile m) →
      metaLookup m "fetched_at" = some (.num f) →
      (cacheGet ttl fs now key = .ok (some df) ↔ now - f ≤ ttl)) ∧
    ((∀ kv ∈ extra, kv.1 ≠ "fetched_at") → now - tp > 0 →
      cacheGet 0 (cachePut fs tp key df extra) now key = .ok none) ∧
    ((∀ kv ∈ extra, kv.1 ≠ "fetched_at") → 0 ≤ ttl →
      cacheGet ttl (cachePut fs tp key df extra) tp key = .ok (some df)) := by
  intro α fs ttl now tp key df m f extra
  refine ⟨fun hd hm hf => ?_, fun hk helapsed => ?_, fun hk httl => ?_⟩
  · rw [cacheGet_of_meta_parsed ttl fs now key df m f hd hm hf]
    by_cases hc : now - f > ttl
    · rw [if_pos hc]
      constructor
      · intro h
        exact absurd h (by simp)
      · intro h
        omega
    · rw [if_neg hc]
      constructor
      · intro _
        omega
      · intro _
        rfl
  · rw [cacheGet_of_meta_parsed 0 _ now key df _ tp
      (cachePut_data fs tp key df extra) (cachePut_meta fs tp key df extra)
      (cachePut_fetched_at tp key extra hk), if_pos helapsed]
  · rw [cacheGet_of_meta_parsed ttl _ tp key df _ tp
      (cachePut_data fs tp key df extra) (cachePut_meta fs tp key df extra)
      (cachePut_fetched_at tp key extra hk), if_neg (by omega)]

theorem claim_C7_witness :
    (cacheGet 10 (cachePut (fun _ => none : FS Nat) 5 "k" 37 []) 5 "k" =
        .ok (some 37) ↔ (5 : Int) - 5 ≤ 10) ∧
    cacheGet 0 (cachePut (fun _ => none : FS Nat) 5 "k" 37 []) 6 "k" =
      .ok none ∧
    cacheGet 10 (cachePut (fun _ => none : FS Nat) 5 "k" 37 []) 5 "k" =
      .ok (some 37) := by
  refine ⟨(claim_C7 Nat (cachePut (fun _ => none) 5 "k" 37 []) 10 5 5 "k" 37
      [("fetched_at", .num 5), ("key", .str "k")] 5 []).1 rfl rfl rfl, ?_, ?_⟩
  · exact (claim_C7 Nat (fun _ => none) 0 6 5 "k" 37
      [("fetched_at", .num 5), ("key", .str "k")] 5 []).2.1
      (by simp) (by decide)
  · exact (claim_C7 Nat (fun _ => none) 10 5 5 "k" 37
      [("fetched_at", .num 5), ("key", .str "k")] 5 []).2.2
      (by simp) (by decide)

/-- Claim C10: when both files exist and the metadata JSON parses but has
no "fetched_at" field, `get` defaults the fetch time to unix time 0, so
the entry reads as stale (a plain miss, no error) whenever `ttl < now`. -/
theorem claim_C10 :
    ∀ (α : Type) (ttl : Int) (fs : FS α) (now : Int) (key : String)
      (df : α) (m : MetaObj),
    fs (data_path key) = some (.parquet df) →
    fs (meta_path key) = some (.jsonFile m) →
    metaLookup m "fetched_at" = none →
    ttl < now → cacheGet ttl fs now key = .ok none := by
  intro α ttl fs now key df m hd hm hf hlt
  rw [cacheGet_no_fetched_at ttl fs now key df m hd hm hf, if_pos (by omega)]

theorem claim_C10_witness :
    cacheGet 3 (fun p => if p = "k.parquet" then some (.parquet (1 : Nat))
      else if p = "k.meta.json" then some (.jsonFile [("key", .str "k")])
      else none) 5 "k" = .ok none := by
  exact claim_C10 Nat 3 _ 5 "k" 1 [("key", .str "k")] rfl rfl rfl (by decide)

/-! ## Key derivation (`make_key`) -/

theorem char_eq_of_toNat_eq {a b : Char} (h : a.toNat = b.toNat) : a = b :=
  Char.eq_of_val_eq (UInt32.eq_of_toBitVec_eq (BitVec.eq_of_toNat_eq h))

theorem charListLe_total :
    ∀ a b : List Char, charListLe a b = true ∨ charListLe b a = true
  | [], _ => Or.inl rfl
  | _ :: _, [] => Or.inr rfl
  | x :: xs, y :: ys => by
    rcases Nat.lt_trichotomy x.toNat y.toNat with h | h | h
    · left
      simp [charListLe, h]
    · rcases charListLe_total xs ys with hle | hle
      · left
        simp [charListLe, hle, (show ¬x.toNat < y.toNat by omega),
          (show ¬y.toNat < x.toNat by omega)]
      · right
        simp [charListLe, hle, (show ¬x.toNat < y.toNat by omega),
          (show ¬y.toNat < x.toNat by omega)]
    · right
      simp [charListLe, h]

theorem charListLe_trans :
    ∀ a b c : List Char, charListLe a b = true → charListLe b c = true →
      charListLe a c = true
  | [], _, _, _, _ => rfl
  | _ :: _, [], _, hab, _ => by simp [charListLe] at hab
  | _ :: _, _ :: _, [], _, hbc => by simp [charListLe] at hbc
  | x :: xs, y :: ys, z :: zs, hab, hbc => by
    rcases Nat.lt_trichotomy x.toNat y.toNat with hxy | hxy | hxy
    · rcases Nat.lt_trichotomy y.toNat z.toNat with hyz | hyz | hyz
      · simp [charListLe, (show x.toNat < z.toNat by omega)]
      · simp [charListLe, (show x.toNat < z.toNat by omega)]
      · simp [charListLe, hyz, (show ¬y.toNat < z.toNat by omega)] at hbc
    · rcases Nat.lt_trichotomy y.toNat z.toNat with hyz | hyz | hyz
      · simp [charListLe, (show x.toNat < z.toNat by omega)]
      · have hab' : charListLe xs ys = true := by
          simpa [charListLe, (show ¬x.toNat < y.toNat by omega),
            (show ¬y.toNat < x.toNat by omega)] using hab
        have hbc' : charListLe ys zs = true := by
          simpa [charListLe, (show ¬y.toNat < z.toNat by omega),
            (show ¬z.toNat < y.toNat by omega)] using hbc
        simp [charListLe, (show ¬x.toNat < z.toNat by omega),
          (show ¬z.toNat < x.toNat by omega),
          charListLe_trans xs ys zs hab' hbc']
      · simp [charListLe, hyz, (show ¬y.toNat < z.toNat by omega)] at hbc
    · simp [charListLe, hxy, (show ¬x.toNat < y.toNat by omega)] at hab

theorem charListLe_antisymm :
    ∀ a b : List Char, charListLe a b = true → charListLe b a = true → a = b
  | [], [], _, _ => rfl
  | [], _ :: _, _, hba => by simp [charListLe] at hba
  | _ :: _, [], hab, _ => by simp [charListLe] at hab
  | x :: xs, y :: ys, hab, hba => by
    rcases Nat.lt_trichotomy x.toNat y.toNat with h | h | h
    · simp [charListLe, h, (show ¬y.toNat < x.toNat by omega)] at hba
    · have hx : x = y := char_eq_of_toNat_eq h
      subst hx
      have hab' : charListLe xs ys = true := by
        simpa [charListLe] using hab
      have hba' : charListLe ys xs = true := by
        simpa [charListLe] using hba
      rw [charListLe_antisymm xs ys hab' hba']
    · simp [charListLe, h, (show ¬x.toNat < y.toNat by omega)] at hab

theorem strLe_total (a b : String) : strLe a b = true ∨ strLe b a = true :=
  charListLe_total a.data b.data

theorem strLe_trans {a b c : String} (h1 : strLe a b = true)
    (h2 : strLe b c = true) : strLe a c = true :=
  charListLe_trans a.data b.data c.data h1 h2

theorem strLe_antisymm {a b : String} (h1 : strLe a b = true)
    (h2 : strLe b a = true) : a = b := by
  have h3 := charListLe_antisymm a.data b.data h1 h2
  cases a
  cases b
  exact congrArg String.mk h3

theorem insertByKey_perm (x : String × PVal) :
    ∀ l : List (String × PVal), (insertByKey x l).Perm (x :: l)
  | [] => List.Perm.refl _
  | y :: ys => by
    by_cases h : strLe x.1 y.1
    · simp [insertByKey, h]
    · simp only [insertByKey, if_neg h]
      exact ((insertByKey_perm x ys).cons y).trans (List.Perm.swap x y ys)

theorem sortByKey_perm : ∀ l : List (String × PVal), (sortByKey l).Perm l
  | [] => List.Perm.refl _
  | x :: xs =>
    (insertByKey_perm x (sortByKey xs)).trans ((sortByKey_perm xs).cons x)

theorem insertByKey_pairwise (x : String × PVal) :
    ∀ l : List (String × PVal), l.Pairwise keyLe →
      (insertByKey x l).Pairwise keyLe
  | [], _ => List.pairwise_singleton _ _
  | y :: ys, hl => by
    by_cases h : strLe x.1 y.1
    · rw [insertByKey, if_pos h]
      refine List.Pairwise.cons (fun z hz => ?_) hl
      rcases List.mem_cons.mp hz with hz | hz
      · subst hz
        exact h
      · exact strLe_trans h (List.rel_of_pairwise_cons hl hz)
    · rw [insertByKey, if_neg h]
      have hyx : keyLe y x := by
        rcases strLe_total x.1 y.1 with h' | h'
        · exact absurd h' h
        · exact h'
      refine List.Pairwise.cons (fun z hz => ?_) (insertByKey_pairwise x ys hl.tail)
      rcases List.mem_cons.mp ((insertByKey_perm x ys).mem_iff.mp hz) with hz' | hz'
      · subst hz'
        exact hyx
      · exact List.rel_of_pairwise_cons hl hz'

theorem sortByKey_pairwise : ∀ l : List (String × PVal),
    (sortByKey l).Pairwise keyLe
  | [] => List.Pairwise.nil
  | x :: xs => insertByKey_pairwise x (sortByKey xs) (sortByKey_pairwise xs)

theorem eq_of_perm_sorted_nodup :
    ∀ l1 l2 : List (String × PVal), l1.Perm l2 → l1.Pairwise keyLe →
      l2.Pairwise keyLe → (l1.map Prod.fst).Nodup → l1 = l2
  | [], l2, hp, _, _, _ => hp.nil_eq
  | x :: xs, [], hp, _, _, _ => by
    exact absurd hp.symm.nil_eq (by simp)
  | x :: xs, y :: ys, hp, hs1, hs2, hnd => by
    have hxy : x = y := by
      rcases List.mem_cons.mp (hp.mem_iff.mp (List.mem_cons_self x xs))
        with h | hx2
      · exact h
      rcases List.mem_cons.mp (hp.symm.mem_iff.mp (List.mem_cons_self y ys))
        with h | hy1
      · exact h.symm
      have le1 : keyLe x y := List.rel_of_pairwise_cons hs1 hy1
      have le2 : keyLe y x := List.rel_of_pairwise_cons hs2 hx2
      have hkey : x.1 = y.1 := strLe_antisymm le1 le2
      have : y.1 ∈ xs.map Prod.fst := List.mem_map_of_mem Prod.fst hy1
      rw [← hkey] at this
      exact absurd this (by simpa using (List.nodup_cons.mp hnd).1)
    subst hxy
    have := eq_of_perm_sorted_nodup xs ys hp.cons_inv hs1.tail hs2.tail
      (by simpa using (List.nodup_cons.mp hnd).2)
    rw [this]

theorem sortByKey_eq_of_perm (l1 l2 : List (String × PVal))
    (hp : l1.Perm l2) (hnd : (l1.map Prod.fst).Nodup) :
    sortByKey l1 = sortByKey l2 := by
  refine eq_of_perm_sorted_nodup _ _
    ((sortByKey_perm l1).trans (hp.trans (sortByKey_perm l2).symm))
    (sortByKey_pairwise l1) (sortByKey_pairwise l2) ?_
  exact (((sortByKey_perm l1).map Prod.fst).nodup_iff).mpr hnd

theorem word8hex_length (x : Nat) : (word8hex x).length = 8 := rfl

theorem sha256hex_length (msg : List Nat) : (sha256hex msg).length = 64 := by
  simp [sha256hex, word8hex]

/-- Claim C3: `make_key(p, i, **e)` is invariant to the keyword-argument
insertion order of `e` (the Python call guarantees the keyword names are
distinct from each other and from "source"/"series_id", the hypothesis
below), it is a total function of its arguments even for heterogeneous
value types (every `PVal`, including non-JSON-native `pother` values,
serializes via its string form), and the returned key always has length
exactly 16. -/
theorem claim_C3 :
    ∀ (p i : String) (e1 e2 params : List (String × PVal)),
    (e1.Perm e2 →
      (("source" :: "series_id" :: e1.map Prod.fst).Nodup) →
      make_key p i e1 = make_key p i e2) ∧
    (make_key p i params).length = 16 := by
  intro p i e1 e2 params
  constructor
  · intro hp hnd
    have hperm : (("source", PVal.pstr p) :: ("series_id", PVal.pstr i) :: e1).Perm
        (("source", PVal.pstr p) :: ("series_id", PVal.pstr i) :: e2) :=
      (hp.cons _).cons _
    have hnd' : ((("source", PVal.pstr p) :: ("series_id", PVal.pstr i) :: e1).map
        Prod.fst).Nodup := by simpa using hnd
    unfold make_key canonicalJson
    rw [sortByKey_eq_of_perm _ _ hperm hnd']
  · have h64 := sha256hex_length (strBytes (canonicalJson
      (("source", PVal.pstr p) :: ("series_id", PVal.pstr i) :: params)))
    simp [make_key, String.length, List.length_take, h64]

theorem claim_C3_witness :
    ([("a", PVal.pint 1), ("b", PVal.pstr "x")] :
        List (String × PVal)).Perm [("b", PVal.pstr "x"), ("a", PVal.pint 1)] ∧
    make_key "fred" "UNRATE" [("a", PVal.pint 1), ("b", PVal.pstr "x")] =
      make_key "fred" "UNRATE" [("b", PVal.pstr "x"), ("a", PVal.pint 1)] ∧
    (make_key "bea" "T20305"
      [("table", PVal.pstr "T20305"), ("line_number", PVal.pint 3),
       ("when", PVal.pother "2024-01-01 00:00:00")]).length = 16 := by
  refine ⟨List.Perm.swap _ _ _, ?_, ?_⟩
  · exact (claim_C3 "fred" "UNRATE" [("a", PVal.pint 1), ("b", PVal.pstr "x")]
      [("b", PVal.pstr "x"), ("a", PVal.pint 1)] []).1
      (List.Perm.swap _ _ _) (by decide)
  · exact (claim_C3 "bea" "T20305" [] []
      [("table", PVal.pstr "T20305"), ("line_number", PVal.pint 3),
       ("when", PVal.pother "2024-01-01 00:00:00")]).2

/-! ## Tree traversals (pure inductive model) -/

theorem positionsList_mem :
    ∀ (ch : List SeriesNode) (k : Nat) (p : List Nat),
      p ∈ positionsList k ch → ∃ i q, p = i :: q ∧ k ≤ i
  | [], _, p, h => absurd h (List.not_mem_nil p)
  | c :: cs, k, p, h => by
    rw [positionsList] at h
    rcases List.mem_append.mp h with h | h
    · obtain ⟨q, _, rfl⟩ := List.mem_map.mp h
      exact ⟨k, q, rfl, Nat.le_refl k⟩
    · obtain ⟨i, q, rfl, hi⟩ := positionsList_mem cs (k + 1) p h
      exact ⟨i, q, rfl, by omega⟩

mutual

theorem positions_nodup : ∀ t : SeriesNode, (positions t).Nodup
  | .mk n c s ch d l => by
    rw [positions]
    refine List.Nodup.cons ?_ (positionsList_nodup ch 0)
    intro hmem
    obtain ⟨i, q, hp, _⟩ := positionsList_mem ch 0 [] hmem
    exact absurd hp (by simp)

theorem positionsList_nodup : ∀ (ch : List SeriesNode) (k : Nat),
    (positionsList k ch).Nodup
  | [], _ => List.nodup_nil
  | c :: cs, k => by
    rw [positionsList]
    refine List.Nodup.append ?_ (positionsList_nodup cs (k + 1)) ?_
    · exact List.Nodup.map_on (fun a _ b _ hab => by simpa using hab)
        (positions_nodup c)
    · intro p hp1 hp2
      obtain ⟨q, _, rfl⟩ := List.mem_map.mp hp1
      obtain ⟨i, q', heq, hi⟩ := positionsList_mem cs (k + 1) _ hp2
      have : k = i := List.head_eq_of_cons_eq heq
      omega

end

mutual

theorem walk_eq_map_positions : ∀ t : SeriesNode,
    (SeriesNode.walk t).map some = (positions t).map (nodeAt? t)
  | .mk n c s ch d l => by
    rw [SeriesNode.walk, positions, List.map_cons, List.map_cons]
    rw [walkList_eq_map ch (.mk n c s ch d l) 0
      (fun i => by rw [SeriesNode.children, Nat.zero_add])]
    rfl

theorem walkList_eq_map : ∀ (ch : List SeriesNode) (t0 : SeriesNode) (k : Nat),
    (∀ i, t0.children.get? (k + i) = ch.get? i) →
    (walkList ch).map some = (positionsList k ch).map (nodeAt? t0)
  | [], _, _, _ => rfl
  | c :: cs, t0, k, hF => by
    rw [walkList, positionsList, List.map_append, List.map_append,
      List.map_map]
    have h0 : t0.children.get? k = some c := by simpa using hF 0
    congr 1
    · rw [walk_eq_map_positions c]
      refine List.map_congr_left (fun q _ => ?_)
      show nodeAt? c q = nodeAt? t0 (k :: q)
      rw [nodeAt?, h0]
    · exact walkList_eq_map cs t0 (k + 1)
        (fun i => by
          rw [show k + 1 + i = k + (1 + i) by omega, hF (1 + i),
            show (1 : Nat) + i = i + 1 by omega]
          rfl)

end

mutual

theorem leaves_eq_filter : ∀ t : SeriesNode,
    SeriesNode.leaves t = (SeriesNode.walk t).filter (fun n => n.is_leaf)
  | .mk n c s ch d l => by
    rw [SeriesNode.leaves, SeriesNode.walk]
    by_cases hl : (SeriesNode.mk n c s ch d l).is_leaf
    · have hch : ch = [] := by
        simpa [SeriesNode.is_leaf, SeriesNode.children] using hl
      subst hch
      simp [hl, walkList, List.filter]
    · rw [if_neg hl, List.filter_cons_of_neg (by simpa using hl)]
      exact leavesList_eq_filter ch

theorem leavesList_eq_filter : ∀ ch : List SeriesNode,
    leavesList ch = (walkList ch).filter (fun n => n.is_leaf)
  | [] => rfl
  | c :: cs => by
    rw [leavesList, walkList, List.filter_append, leaves_eq_filter c,
      leavesList_eq_filter cs]

end

mutual

theorem find_eq_walk_find? : ∀ (t : SeriesNode) (code : String),
    t.find code = (t.walk).find? (fun n => n.code == code)
  | .mk n c s ch d l, code => by
    rw [SeriesNode.find, SeriesNode.walk, List.find?_cons]
    by_cases hc : c = code
    · rw [if_pos hc]
      rw [show ((SeriesNode.mk n c s ch d l).code == code) = true by
        simp [SeriesNode.code, hc]]
    · rw [if_neg hc]
      rw [show ((SeriesNode.mk n c s ch d l).code == code) = false by
        simp [SeriesNode.code, hc]]
      exact findList_eq_find? ch code

theorem findList_eq_find? : ∀ (ch : List SeriesNode) (code : String),
    findList ch code = (walkList ch).find? (fun n => n.code == code)
  | [], _ => rfl
  | c :: cs, code => by
    rw [findList, walkList, List.find?_append, find_eq_walk_find? c code,
      findList_eq_find? cs code]
    cases (c.walk).find? (fun n => n.code == code) <;> rfl

end

theorem find?_self_of_codes_nodup :
    ∀ (l : List SeriesNode), ((l.map SeriesNode.code).Nodup) →
      ∀ n ∈ l, l.find? (fun m => m.code == n.code) = some n
  | [], _, n, hn => absurd hn (List.not_mem_nil n)
  | a :: as, hnd, n, hn => by
    rcases List.mem_cons.mp hn with rfl | hn'
    · simp [List.find?_cons]
    · have hne : (a.code == n.code) = false := by
        refine beq_eq_false_iff_ne.mpr (fun he => ?_)
        have : n.code ∈ as.map SeriesNode.code :=
          List.mem_map_of_mem SeriesNode.code hn'
        rw [← he] at this
        exact absurd this (by simpa using (List.nodup_cons.mp hnd).1)
      rw [List.find?_cons, hne]
      exact find?_self_of_codes_nodup as (List.nodup_cons.mp hnd).2 n hn'

/-- Claim C5: `walk()` yields exactly the nodes of the subtree, one per
tree position, in pre-order (self first, then each child's subtree in
stored order, as `positions` enumerates); positions are pairwise distinct,
so every node of the tree is yielded exactly once; and `leaves()` is
exactly the subsequence of `walk()` of nodes with no children, in the same
relative order. Both are plain functions of the tree value, hence finite
and restartable. -/
theorem claim_C5 : ∀ t : SeriesNode,
    (t.walk).map some = (positions t).map (nodeAt? t) ∧
    (positions t).Nodup ∧
    t.leaves = (t.walk).filter (fun n => n.is_leaf) := by
  intro t
  exact ⟨walk_eq_map_positions t, positions_nodup t, leaves_eq_filter t⟩

/-- Claim C6: `find(code)` returns the first node of the pre-order
traversal whose `code` matches, `none` exactly when no node of the subtree
has the code, and on a tree with pairwise distinct codes it returns the
unique node carrying each present code. -/
theorem claim_C6 : ∀ (t : SeriesNode) (code : String),
    (t.find code = (t.walk).find? (fun n => n.code == code)) ∧
    (t.find code = none ↔ ∀ n ∈ t.walk, n.code ≠ code) ∧
    (((t.walk).map SeriesNode.code).Nodup →
      ∀ n ∈ t.walk, t.find n.code = some n) := by
  intro t code
  refine ⟨find_eq_walk_find? t code, ?_, fun hnd n hn => ?_⟩
  · rw [find_eq_walk_find? t code, List.find?_eq_none]
    simp
  · rw [find_eq_walk_find? t n.code]
    exact find?_self_of_codes_nodup (t.walk) hnd n hn

theorem claim_C6_witness :
    ((((SeriesNode.mk "Root" "R" [] [.mk "Leaf" "A" [] [] "" 0] "" 0).walk).map
        SeriesNode.code).Nodup) ∧
    (SeriesNode.mk "Root" "R" [] [.mk "Leaf" "A" [] [] "" 0] "" 0).find "A" =
      some (.mk "Leaf" "A" [] [] "" 0) := by
  refine ⟨by decide, ?_⟩
  have h := (claim_C6 (.mk "Root" "R" [] [.mk "Leaf" "A" [] [] "" 0] "" 0)
    "A").2.2 (by decide) (.mk "Leaf" "A" [] [] "" 0)
    (List.Mem.tail _ (List.Mem.head _))
  exact h

theorem toDictList_eq_map : ∀ ch : List SeriesNode,
    toDictList ch = ch.map SeriesNode.to_dict
  | [] => rfl
  | c :: cs => by rw [toDictList, List.map_cons, toDictList_eq_map cs]

/-- Claim C8, amended: `to_dict()` produces a nested object with fields
name, code, level, description, sources, and — only for non-leaves — a
children field holding the children's serializations in order; the
children key is entirely absent for leaf nodes; each source serializes as
the three-field object whose literal JSON keys are "source", "series_id"
and "extra" (the spec's provider/series_id/params triple under its own
renaming of the dataclass fields). -/
theorem claim_C8_amended : ∀ t : SeriesNode,
    (t.to_dict = .obj ([("name", .str t.name), ("code", .str t.code),
        ("level", .num (t.level : Int)), ("description", .str t.description),
        ("sources", .arr (t.sources.map sourceToDict))] ++
      (if t.is_leaf then []
       else [("children", .arr (t.children.map SeriesNode.to_dict))]))) ∧
    (objKeys t.to_dict = ["name", "code", "level", "description", "sources"]
      ++ (if t.is_leaf then [] else ["children"])) ∧
    (∀ s : SeriesSource, sourceToDict s = .obj [("source", .str s.source),
      ("series_id", .str s.series_id), ("extra", .obj s.extra)]) := by
  intro t
  obtain ⟨n, c, s, ch, d, l⟩ := t
  have hd : (SeriesNode.mk n c s ch d l).to_dict = .obj
      ([("name", .str n), ("code", .str c), ("level", .num (l : Int)),
        ("description", .str d), ("sources", .arr (s.map sourceToDict))] ++
        (if (SeriesNode.mk n c s ch d l).is_leaf then []
         else [("children", .arr (ch.map SeriesNode.to_dict))])) := by
    rw [SeriesNode.to_dict, toDictList_eq_map]
    rfl
  refine ⟨hd, ?_, fun s => rfl⟩
  rw [hd]
  by_cases hl : (SeriesNode.mk n c s ch d l).is_leaf <;>
    simp [hl, objKeys]

/-- Claim C8, counterexample: the serialized source object's literal keys
are "source", "series_id", "extra" — not "provider", "series_id",
"params" as the claim's `{provider, series_id, params}` shape states when
its field names are read as the JSON keys of the export. -/
theorem claim_C8_counterexample :
    objKeys (sourceToDict ⟨"fred", "UNRATE", []⟩) =
      ["source", "series_id", "extra"] ∧
    objKeys (sourceTripleSpec ⟨"fred", "UNRATE", []⟩) =
      ["provider", "series_id", "params"] ∧
    sourceToDict ⟨"fred", "UNRATE", []⟩ ≠
      sourceTripleSpec ⟨"fred", "UNRATE", []⟩ ∧
    jsonLookup (SeriesNode.to_dict
        (.mk "Unemployment Rate" "UNRATE" [⟨"fred", "UNRATE", []⟩] [] "" 0))
      "sources" = some (.arr [.obj [("source", .str "fred"),
        ("series_id", .str "UNRATE"), ("extra", .obj [])]]) := by
  refine ⟨rfl, rfl, fun h => absurd (congrArg objKeys h) (by decide), rfl⟩

/-! ## Heap model: basic lemmas -/

theorem hset_same (h : Heap) (i : Nat) (d : NodeData) : (hset h i d) i = some d := by
  simp [hset]

theorem hset_other (h : Heap) (i : Nat) (d : NodeData) (j : Nat) (hne : j ≠ i) :
    (hset h i d) j = h j := by
  simp [hset, hne]

theorem setPL_same (h : Heap) (i : Nat) (p : Option Nat) (lv : Nat) (d : NodeData)
    (hd : h i = some d) :
    (setPL h i p lv) i = some { d with parent := p, level := lv } := by
  rw [setPL, hd]
  exact hset_same h i _

theorem setPL_other (h : Heap) (i : Nat) (p : Option Nat) (lv : Nat) (j : Nat)
    (hne : j ≠ i) : (setPL h i p lv) j = h j := by
  rw [setPL]
  cases h i with
  | none => rfl
  | some d => exact hset_other h i _ j hne

theorem kidsView_setPL (h : Heap) (i : Nat) (p : Option Nat) (lv : Nat) (j : Nat) :
    kidsView (setPL h i p lv) j = kidsView h j := by
  by_cases hji : j = i
  · subst hji
    cases hd : h j with
    | none => rw [setPL, hd]
    | some d => rw [kidsView, setPL_same h j p lv d hd, kidsView, hd]; rfl
  · rw [kidsView, setPL_other h i p lv j hji, kidsView]

theorem levelOf_setPL_same (h : Heap) (i : Nat) (p : Option Nat) (lv : Nat)
    (d : NodeData) (hd : h i = some d) : levelOfH (setPL h i p lv) i = lv := by
  rw [levelOfH, setPL_same h i p lv d hd]

theorem kidsView_postKidsGo (rec : Heap → Nat → Heap)
    (hrec : ∀ hh c j, kidsView (rec hh c) j = kidsView hh j) :
    ∀ (cs : List Nat) (h : Heap) (i : Nat) (j : Nat),
      kidsView (postKidsGo rec h i cs) j = kidsView h j
  | [], _, _, _ => rfl
  | c :: cs, h, i, j => by
    rw [postKidsGo, kidsView_postKidsGo rec hrec cs _ i j, hrec, kidsView_setPL]

theorem kidsView_postInitH :
    ∀ (fuel : Nat) (h : Heap) (i : Nat) (j : Nat),
      kidsView (postInitH fuel h i) j = kidsView h j
  | 0, _, _, _ => rfl
  | fuel + 1, h, i, j => by
    rw [postInitH]
    cases h i with
    | none => rfl
    | some d =>
      exact kidsView_postKidsGo _ (fun hh c j' => kidsView_postInitH fuel hh c j')
        d.children h i j

mutual

theorem shapeOK_congr_on : ∀ (t : ITree) (h1 h2 : Heap),
    (∀ x ∈ t.ids, kidsView h1 x = kidsView h2 x) →
    shapeOK h1 t = shapeOK h2 t
  | .node i cs, h1, h2, hkv => by
    have hi : kidsView h1 i = kidsView h2 i :=
      hkv i (by rw [ITree.ids]; exact List.mem_cons_self i _)
    rw [shapeOK, shapeOK]
    have hall : shapeAll h1 cs = shapeAll h2 cs :=
      shapeAll_congr_on cs h1 h2
        (fun x hx => hkv x (by rw [ITree.ids]; exact List.mem_cons_of_mem i hx))
    cases hc1 : h1 i with
    | none =>
      have : kidsView h2 i = none := by rw [← hi, kidsView, hc1]; rfl
      cases hc2 : h2 i with
      | none => rfl
      | some d2 => rw [kidsView, hc2] at this; exact absurd this (by simp)
    | some d1 =>
      cases hc2 : h2 i with
      | none =>
        have : kidsView h1 i = none := by rw [hi, kidsView, hc2]; rfl
        rw [kidsView, hc1] at this
        exact absurd this (by simp)
      | some d2 =>
        have hch : d1.children = d2.children := by
          have := hi
          rw [kidsView, kidsView, hc1, hc2] at this
          simpa using this
        show (decide (d1.children = topIds cs) && shapeAll h1 cs) =
          (decide (d2.children = topIds cs) && shapeAll h2 cs)
        rw [hch, hall]

theorem shapeAll_congr_on : ∀ (cs : List ITree) (h1 h2 : Heap),
    (∀ x ∈ idsList cs, kidsView h1 x = kidsView h2 x) →
    shapeAll h1 cs = shapeAll h2 cs
  | [], _, _, _ => rfl
  | t :: ts, h1, h2, hkv => by
    rw [shapeAll, shapeAll,
      shapeOK_congr_on t h1 h2
        (fun x hx => hkv x (by rw [idsList]; exact List.mem_append_left _ hx)),
      shapeAll_congr_on ts h1 h2
        (fun x hx => hkv x (by rw [idsList]; exact List.mem_append_right _ hx))]

end

theorem shapeOK_setPL (t : ITree) (h : Heap) (i : Nat) (p : Option Nat) (lv : Nat) :
    shapeOK (setPL h i p lv) t = shapeOK h t :=
  shapeOK_congr_on t _ _ (fun x _ => kidsView_setPL h i p lv x)

theorem shapeOK_postInitH (t : ITree) (fuel : Nat) (h : Heap) (i : Nat) :
    shapeOK (postInitH fuel h i) t = shapeOK h t :=
  shapeOK_congr_on t _ _ (fun x _ => kidsView_postInitH fuel h i x)

theorem shapeAll_setPL (cs : List ITree) (h : Heap) (i : Nat) (p : Option Nat)
    (lv : Nat) : shapeAll (setPL h i p lv) cs = shapeAll h cs :=
  shapeAll_congr_on cs _ _ (fun x _ => kidsView_setPL h i p lv x)

theorem shapeAll_postInitH (cs : List ITree) (fuel : Nat) (h : Heap) (i : Nat) :
    shapeAll (postInitH fuel h i) cs = shapeAll h cs :=
  shapeAll_congr_on cs _ _ (fun x _ => kidsView_postInitH fuel h i x)

/-! ## Shape-tree structural lemmas -/

theorem ids_eq : ∀ t : ITree, t.ids = t.topId :: descIds t
  | .node _ _ => rfl

theorem topId_mem_ids (t : ITree) : t.topId ∈ t.ids := by
  rw [ids_eq]
  exact List.mem_cons_self _ _

theorem descIds_subset_ids (t : ITree) {j : Nat} (hj : j ∈ descIds t) :
    j ∈ t.ids := by
  rw [ids_eq]
  exact List.mem_cons_of_mem _ hj

theorem topId_notin_descIds (t : ITree) (hnd : t.ids.Nodup) :
    t.topId ∉ descIds t := by
  rw [ids_eq] at hnd
  exact (List.nodup_cons.mp hnd).1

theorem descIds_nodup (t : ITree) (hnd : t.ids.Nodup) : (descIds t).Nodup := by
  rw [ids_eq] at hnd
  exact (List.nodup_cons.mp hnd).2

theorem idsList_append : ∀ xs ys : List ITree,
    idsList (xs ++ ys) = idsList xs ++ idsList ys
  | [], _ => rfl
  | t :: ts, ys => by
    rw [List.cons_append, idsList, idsList_append ts ys, idsList,
      List.append_assoc]

theorem topIds_cons (t : ITree) (ts : List ITree) :
    topIds (t :: ts) = t.topId :: topIds ts := rfl

theorem topIds_append (xs ys : List ITree) :
    topIds (xs ++ ys) = topIds xs ++ topIds ys := by
  simp [topIds]

mutual

theorem assignBelow_map_fst : ∀ (t : ITree) (lv : Nat),
    (assignBelow t lv).map (fun x => x.1) = descIds t
  | .node i cs, lv => by
    rw [assignBelow, descIds]
    exact assignKids_map_fst cs i lv

theorem assignKids_map_fst : ∀ (cs : List ITree) (p lv : Nat),
    (assignKids cs p lv).map (fun x => x.1) = idsList cs
  | [], _, _ => rfl
  | t :: ts, p, lv => by
    rw [assignKids, idsList, List.map_cons, List.map_append,
      assignBelow_map_fst t (lv + 1), assignKids_map_fst ts p lv, ids_eq]
    rfl

end

theorem assignBelow_fst_mem {t : ITree} {lv : Nat} {x : Nat × Nat × Nat}
    (hx : x ∈ assignBelow t lv) : x.1 ∈ descIds t := by
  rw [← assignBelow_map_fst t lv]
  exact List.mem_map_of_mem _ hx

theorem assignKids_fst_mem {cs : List ITree} {p lv : Nat} {x : Nat × Nat × Nat}
    (hx : x ∈ assignKids cs p lv) : x.1 ∈ idsList cs := by
  rw [← assignKids_map_fst cs p lv]
  exact List.mem_map_of_mem _ hx

theorem shapeOK_lookup {h : Heap} {t : ITree} (hsh : shapeOK h t = true) :
    ∃ d, h t.topId = some d := by
  obtain ⟨i, cs⟩ := t
  rw [shapeOK] at hsh
  cases hd : h i with
  | none => rw [hd] at hsh; exact absurd hsh (by simp)
  | some d => exact ⟨d, hd⟩

theorem shapeOK_node {h : Heap} {i : Nat} {cs : List ITree}
    (hsh : shapeOK h (.node i cs) = true) :
    ∃ d, h i = some d ∧ d.children = topIds cs ∧ shapeAll h cs = true := by
  rw [shapeOK] at hsh
  cases hd : h i with
  | none => rw [hd] at hsh; exact absurd hsh (by simp)
  | some d =>
    rw [hd] at hsh
    exact ⟨d, rfl, by simpa using hsh⟩

theorem shapeAll_cons {h : Heap} {t : ITree} {ts : List ITree} :
    shapeAll h (t :: ts) = true ↔
      shapeOK h t = true ∧ shapeAll h ts = true := by
  rw [shapeAll]
  simp

theorem postInitH_some (fuel : Nat) (h : Heap) (i : Nat) (d : NodeData)
    (hd : h i = some d) :
    postInitH (fuel + 1) h i =
      postKidsGo (fun hh cc => postInitH fuel hh cc) h i d.children := by
  rw [postInitH, hd]

theorem postKidsGo_cons (rec : Heap → Nat → Heap) (h : Heap) (i c : Nat)
    (cs : List Nat) :
    postKidsGo rec h i (c :: cs) =
      postKidsGo rec (rec (setPL h c (some i) (levelOfH h i + 1)) c) i cs := rfl

theorem height_pos : ∀ t : ITree, 1 ≤ t.height
  | .node _ cs => by rw [ITree.height]; omega

theorem height_le_of_mem : ∀ {cs : List ITree} {t : ITree}, t ∈ cs →
    t.height ≤ heightList cs := by
  intro cs
  induction cs with
  | nil => intro t ht; cases ht
  | cons c cs ih =>
    intro t ht
    rw [heightList]
    rcases List.mem_cons.mp ht with rfl | ht'
    · exact Nat.le_max_left _ _
    · exact Nat.le_trans (ih ht') (Nat.le_max_right _ _)

/-! ## Correctness of the `__post_init__` fix-up pass

On a heap realizing a shape tree with pairwise distinct ids, and with
fuel at least the height, the fix-up pass leaves every entry outside the
strict descendants untouched and rewrites exactly the parent and level of
every strict descendant to its positional parent and that parent's level
plus one. -/

mutual

theorem postInit_spec : ∀ (t : ITree) (fuel : Nat) (h : Heap),
    shapeOK h t = true → t.ids.Nodup → t.height ≤ fuel →
    (∀ j, j ∉ descIds t → postInitH fuel h t.topId j = h j) ∧
    (∀ x ∈ assignBelow t (levelOfH h t.topId), ∃ d, h x.1 = some d ∧
      postInitH fuel h t.topId x.1 =
        some { d with parent := some x.2.1, level := x.2.2 })
  | .node i cs, fuel, h, hsh, hnd, hfuel => by
    obtain ⟨d, hd, hdch, hall⟩ := shapeOK_node hsh
    rw [ITree.height] at hfuel
    cases fuel with
    | zero => omega
    | succ f =>
      have hstep := postInitH_some f h i d hd
      rw [hdch] at hstep
      have hf : heightList cs ≤ f := by omega
      have hnd' : (i :: idsList cs).Nodup := hnd
      have hspec := postKids_spec cs f h i hall hnd' hf
      simp only [ITree.topId, descIds, assignBelow]
      constructor
      · intro j hj
        rw [hstep]
        exact hspec.1 j hj
      · intro x hx
        rw [hstep]
        exact hspec.2 x hx

theorem postKids_spec : ∀ (cs : List ITree) (fuel : Nat) (h : Heap) (i : Nat),
    shapeAll h cs = true → (i :: idsList cs).Nodup → heightList cs ≤ fuel →
    (∀ j, j ∉ idsList cs →
      postKidsGo (fun hh cc => postInitH fuel hh cc) h i (topIds cs) j = h j) ∧
    (∀ x ∈ assignKids cs i (levelOfH h i), ∃ d, h x.1 = some d ∧
      postKidsGo (fun hh cc => postInitH fuel hh cc) h i (topIds cs) x.1 =
        some { d with parent := some x.2.1, level := x.2.2 })
  | [], fuel, h, i, _, _, _ => by
    constructor
    · intro j _
      rfl
    · intro x hx
      exact absurd hx (List.not_mem_nil x)
  | tc :: cs', fuel, h, i, hall, hnd, hfuel => by
    obtain ⟨hsh_tc, hall'⟩ := shapeAll_cons.mp hall
    -- names and sets
    have hc_mem : tc.topId ∈ tc.ids := topId_mem_ids tc
    have hids : idsList (tc :: cs') = tc.ids ++ idsList cs' := rfl
    have hnd0 := List.nodup_cons.mp hnd
    have hi_notin : i ∉ tc.ids ++ idsList cs' := by rw [← hids]; exact hnd0.1
    have hnd_app := List.nodup_append.mp (by rw [← hids]; exact hnd0.2)
    have hnd_tc : tc.ids.Nodup := hnd_app.1
    have hnd_cs' : (idsList cs').Nodup := hnd_app.2.1
    have hdisj : ∀ a ∈ tc.ids, a ∉ idsList cs' := fun a ha => hnd_app.2.2 ha
    have hc_ne_i : tc.topId ≠ i := by
      intro he
      exact hi_notin (by rw [← he]; exact List.mem_append_left _ hc_mem)
    have hc_notin_desc : tc.topId ∉ descIds tc := topId_notin_descIds tc hnd_tc
    obtain ⟨dc, hdc⟩ := shapeOK_lookup hsh_tc
    -- the first loop iteration
    set lv := levelOfH h i with hlv
    have h1def : postKidsGo (fun hh cc => postInitH fuel hh cc) h i
        (topIds (tc :: cs')) =
        postKidsGo (fun hh cc => postInitH fuel hh cc)
          (postInitH fuel (setPL h tc.topId (some i) (lv + 1)) tc.topId) i
          (topIds cs') := by
      rw [topIds_cons, postKidsGo_cons]
    set h1 := setPL h tc.topId (some i) (lv + 1) with hh1
    have h1_at_c : h1 (tc.topId) =
        some { dc with parent := some i, level := lv + 1 } :=
      setPL_same h tc.topId (some i) (lv + 1) dc hdc
    have h1_other : ∀ j, j ≠ tc.topId → h1 j = h j := fun j hj =>
      setPL_other h tc.topId (some i) (lv + 1) j hj
    have h1_lv_c : levelOfH h1 tc.topId = lv + 1 := by
      rw [levelOfH, h1_at_c]
    -- recurse into the first child's subtree
    have hsh1 : shapeOK h1 tc = true := by
      rw [hh1, shapeOK_setPL]
      exact hsh_tc
    have htc_h : tc.height ≤ fuel :=
      Nat.le_trans (height_le_of_mem (List.mem_cons_self tc cs')) hfuel
    have hspec_tc := postInit_spec tc fuel h1 hsh1 hnd_tc htc_h
    set h2 := postInitH fuel h1 tc.topId with hh2
    have h2_frame : ∀ j, j ∉ descIds tc → h2 j = h1 j := hspec_tc.1
    have h2_upd := hspec_tc.2
    rw [h1_lv_c] at h2_upd
    -- facts surviving to h2
    have h2_at_i : h2 i = h i := by
      rw [h2_frame i (fun hmem =>
          hi_notin (List.mem_append_left _ (descIds_subset_ids tc hmem))),
        h1_other i (fun he => hc_ne_i he.symm)]
    have h2_lv_i : levelOfH h2 i = lv := by rw [levelOfH, h2_at_i, hlv, levelOfH]
    have h2_at_c : h2 (tc.topId) =
        some { dc with parent := some i, level := lv + 1 } := by
      rw [h2_frame tc.topId hc_notin_desc, h1_at_c]
    -- recurse over the remaining children
    have hall2 : shapeAll h2 cs' = true := by
      rw [hh2, shapeAll_postInitH, hh1, shapeAll_setPL]
      exact hall'
    have hnd2 : (i :: idsList cs').Nodup := by
      refine List.nodup_cons.mpr ⟨?_, hnd_cs'⟩
      intro hmem
      exact hi_notin (List.mem_append_right _ hmem)
    have hf' : heightList cs' ≤ fuel := by
      rw [heightList] at hfuel
      omega
    have hspec' := postKids_spec cs' fuel h2 i hall2 hnd2 hf'
    have h3_frame := hspec'.1
    have h3_upd := hspec'.2
    rw [h2_lv_i] at h3_upd
    rw [h1def]
    constructor
    · -- frame
      intro j hj
      have hj_tc : j ∉ tc.ids := fun hmem =>
        hj (by rw [hids]; exact List.mem_append_left _ hmem)
      have hj_cs' : j ∉ idsList cs' := fun hmem =>
        hj (by rw [hids]; exact List.mem_append_right _ hmem)
      rw [h3_frame j hj_cs', h2_frame j (fun hmem =>
          hj_tc (descIds_subset_ids tc hmem)),
        h1_other j (fun he => hj_tc (he ▸ hc_mem))]
    · -- updates
      intro x hx
      rw [assignKids] at hx
      rcases List.mem_cons.mp hx with rfl | hx'
      · -- the first child itself
        refine ⟨dc, hdc, ?_⟩
        rw [h3_frame _ (fun hmem => hdisj _ hc_mem hmem), h2_at_c]
      · rcases List.mem_append.mp hx' with hx'' | hx''
        · -- a strict descendant of the first child
          obtain ⟨d, hd1, hd2⟩ := h2_upd x hx''
          have hx_desc : x.1 ∈ descIds tc := assignBelow_fst_mem hx''
          have hx_ne_c : x.1 ≠ tc.topId := fun he =>
            hc_notin_desc (he ▸ hx_desc)
          refine ⟨d, by rw [← h1_other x.1 hx_ne_c]; exact hd1, ?_⟩
          rw [h3_frame _ (fun hmem =>
            hdisj _ (descIds_subset_ids tc hx_desc) hmem), hd2]
        · -- a node of a later sibling's subtree
          obtain ⟨d, hd2, hdfin⟩ := h3_upd x hx''
          have hx_cs' : x.1 ∈ idsList cs' := assignKids_fst_mem hx''
          have hx_notin_tc : x.1 ∉ tc.ids := fun hmem => hdisj _ hmem hx_cs'
          refine ⟨d, ?_, hdfin⟩
          rw [← h1_other x.1 (fun he => hx_notin_tc (he ▸ hc_mem)),
            ← h2_frame x.1 (fun hmem =>
              hx_notin_tc (descIds_subset_ids tc hmem))]
          exact hd2

end

theorem nodeData_set_pl_self (d : NodeData) {p : Option Nat} {l : Nat}
    (hp : d.parent = p) (hl : d.level = l) :
    { d with parent := p, level := l } = d := by
  cases d
  cases hp
  cases hl
  rfl

/-- Re-running the fix-up on an already-consistent subtree is the
identity on the heap. -/
theorem postInit_consistent_id (t : ITree) (fuel : Nat) (h : Heap)
    (hsh : shapeOK h t = true) (hnd : t.ids.Nodup) (hfuel : t.height ≤ fuel)
    (hcons : ∀ x ∈ assignBelow t (levelOfH h t.topId), ∃ d, h x.1 = some d ∧
      d.parent = some x.2.1 ∧ d.level = x.2.2) :
    postInitH fuel h t.topId = h := by
  have hspec := postInit_spec t fuel h hsh hnd hfuel
  funext j
  by_cases hj : j ∈ descIds t
  · rw [← assignBelow_map_fst t (levelOfH h t.topId)] at hj
    obtain ⟨x, hx, hxj⟩ := List.mem_map.mp hj
    obtain ⟨d, hd, hfin⟩ := hspec.2 x hx
    obtain ⟨d', hd', hp, hl⟩ := hcons x hx
    rw [hd] at hd'
    obtain rfl : d = d' := Option.some.inj hd'
    rw [← hxj, hfin, nodeData_set_pl_self d hp hl, hd]
  · exact hspec.1 j hj

/-- The fix-up result does not depend on the fuel once the fuel covers the
height: the recursion terminates at depth `height`. -/
theorem postInit_fuel_free (t : ITree) (fuel fuel2 : Nat) (h : Heap)
    (hsh : shapeOK h t = true) (hnd : t.ids.Nodup)
    (hfuel : t.height ≤ fuel) (hfuel2 : t.height ≤ fuel2) :
    postInitH fuel h t.topId = postInitH fuel2 h t.topId := by
  have hs1 := postInit_spec t fuel h hsh hnd hfuel
  have hs2 := postInit_spec t fuel2 h hsh hnd hfuel2
  funext j
  by_cases hj : j ∈ descIds t
  · rw [← assignBelow_map_fst t (levelOfH h t.topId)] at hj
    obtain ⟨x, hx, hxj⟩ := List.mem_map.mp hj
    obtain ⟨d, hd, hfin⟩ := hs1.2 x hx
    obtain ⟨d', hd', hfin'⟩ := hs2.2 x hx
    rw [hd] at hd'
    obtain rfl : d = d' := Option.some.inj hd'
    rw [← hxj, hfin, hfin']
  · rw [hs1.1 j hj, hs2.1 j hj]

/-- Claim C9: the recursive `__post_init__` fix-up is idempotent — running
it again on its own output changes nothing, and on a subtree whose parent
pointers and levels are already consistent it changes no entry at all —
and it terminates on every finite acyclic subtree: with any fuel at least
the subtree's height the recursion has already stabilized (the result is
fuel-independent). -/
theorem claim_C9 : ∀ (t : ITree) (h : Heap) (fuel fuel2 : Nat),
    shapeOK h t = true → t.ids.Nodup → t.height ≤ fuel → t.height ≤ fuel2 →
    (postInitH fuel (postInitH fuel2 h t.topId) t.topId =
      postInitH fuel2 h t.topId) ∧
    ((∀ x ∈ assignBelow t (levelOfH h t.topId), ∃ d, h x.1 = some d ∧
        d.parent = some x.2.1 ∧ d.level = x.2.2) →
      postInitH fuel h t.topId = h) ∧
    postInitH fuel h t.topId = postInitH fuel2 h t.topId := by
  intro t h fuel fuel2 hsh hnd hfuel hfuel2
  have hspec2 := postInit_spec t fuel2 h hsh hnd hfuel2
  have hroot : postInitH fuel2 h t.topId (t.topId) = h (t.topId) :=
    hspec2.1 (t.topId) (topId_notin_descIds t hnd)
  refine ⟨?_, postInit_consistent_id t fuel h hsh hnd hfuel,
    postInit_fuel_free t fuel fuel2 h hsh hnd hfuel hfuel2⟩
  refine postInit_consistent_id t fuel _ ?_ hnd hfuel ?_
  · rw [shapeOK_postInitH]
    exact hsh
  · have hlv : levelOfH (postInitH fuel2 h t.topId) t.topId =
        levelOfH h t.topId := by rw [levelOfH, hroot, levelOfH]
    rw [hlv]
    intro x hx
    obtain ⟨d, _, hfin⟩ := hspec2.2 x hx
    exact ⟨{ d with parent := some x.2.1, level := x.2.2 }, hfin, rfl, rfl⟩

theorem claim_C9_witness :
    shapeOK cycleHeap (.node 0 [.node 1 []]) = true ∧
    postInitH 2 cycleHeap 0 = cycleHeap ∧
    postInitH 2 (postInitH 3 cycleHeap 0) 0 = postInitH 3 cycleHeap 0 ∧
    postInitH 2 cycleHeap 0 = postInitH 3 cycleHeap 0 := by
  have h := claim_C9 (.node 0 [.node 1 []]) cycleHeap 2 3 (by decide)
    (by decide) (by decide) (by decide)
  refine ⟨by decide, ?_, h.1, h.2.2⟩
  refine h.2.1 ?_
  intro x hx
  have hx' : x = (1, 0, 1) := by
    have : assignBelow (ITree.node 0 [.node 1 []]) (levelOfH cycleHeap 0) =
        [(1, 0, 1)] := rfl
    rw [show (ITree.node 0 [ITree.node 1 []]).topId = 0 from rfl] at hx
    rw [this] at hx
    exact List.mem_singleton.mp hx
  subst hx'
  exact ⟨⟨"Child", "C", [], [], "", 1, some 0⟩, rfl, rfl, rfl⟩

/-! ## `add_child` -/

theorem appendChildH_same (h : Heap) (s c : Nat) (d : NodeData)
    (hd : h s = some d) :
    (appendChildH h s c) s = some { d with children := d.children ++ [c] } := by
  rw [appendChildH, hd]
  exact hset_same h s _

theorem appendChildH_other (h : Heap) (s c : Nat) (j : Nat) (hne : j ≠ s) :
    (appendChildH h s c) j = h j := by
  rw [appendChildH]
  cases h s with
  | none => rfl
  | some d => exact hset_other h s _ j hne

/-- Python `add_child` always appends the child id to the receiver's `children`
list, whatever the two nodes are. -/
theorem add_child_appends (fuel : Nat) (h : Heap) (s c : Nat) (sd : NodeData)
    (hs : h s = some sd) :
    kidsView (add_childH fuel h s c) s = some (sd.children ++ [c]) := by
  simp only [add_childH]
  have hkv : kidsView (postInitH fuel
      (setPL h c (some s) (levelOfH h s + 1)) c) s = some sd.children := by
    rw [kidsView_postInitH, kidsView_setPL, kidsView, hs]
    rfl
  obtain ⟨d2, hd2, hd2ch⟩ := Option.map_eq_some'.mp hkv
  rw [appendChildH, hd2]
  show kidsView (hset (postInitH fuel (setPL h c (some s) (levelOfH h s + 1)) c)
    s { d2 with children := d2.children ++ [c] }) s = some (sd.children ++ [c])
  simp [kidsView, hset_same, hd2ch]

/-- Full effect of `add_child` in the ordinary case: the child heads a
well-formed subtree that does not contain the receiver. -/
theorem add_child_spec (fuel : Nat) (h : Heap) (s : Nat) (tc : ITree)
    (sd cd : NodeData)
    (hsh : shapeOK h tc = true) (hnd : tc.ids.Nodup) (hfuel : tc.height ≤ fuel)
    (hs_notin : s ∉ tc.ids) (hs : h s = some sd) (hcd : h tc.topId = some cd) :
    (add_childH fuel h s tc.topId) s =
      some { sd with children := sd.children ++ [tc.topId] } ∧
    (add_childH fuel h s tc.topId) tc.topId =
      some { cd with parent := some s, level := sd.level + 1 } ∧
    (∀ x ∈ assignBelow tc (sd.level + 1), ∃ d, h x.1 = some d ∧
      (add_childH fuel h s tc.topId) x.1 =
        some { d with parent := some x.2.1, level := x.2.2 }) ∧
    (∀ j, j ∉ tc.ids → j ≠ s → (add_childH fuel h s tc.topId) j = h j) := by
    have hc_ne_s : tc.topId ≠ s := fun he => hs_notin (he ▸ topId_mem_ids tc)
    have hlv : levelOfH h s = sd.level := by rw [levelOfH, hs]
    simp only [add_childH, hlv]
    set h1 := setPL h tc.topId (some s) (sd.level + 1) with hh1
    have h1_at_c : h1 tc.topId =
        some { cd with parent := some s, level := sd.level + 1 } :=
      setPL_same h tc.topId (some s) (sd.level + 1) cd hcd
    have h1_other : ∀ j, j ≠ tc.topId → h1 j = h j := fun j hj =>
      setPL_other h tc.topId (some s) (sd.level + 1) j hj
    have hsh1 : shapeOK h1 tc = true := by rw [hh1, shapeOK_setPL]; exact hsh
    have hspec := postInit_spec tc fuel h1 hsh1 hnd hfuel
    set h2 := postInitH fuel h1 tc.topId with hh2
    have h1_lv_c : levelOfH h1 tc.topId = sd.level + 1 := by
      rw [levelOfH, h1_at_c]
    have h2_upd := hspec.2
    rw [h1_lv_c] at h2_upd
    have h2_at_s : h2 s = some sd := by
      rw [hspec.1 s (fun hmem => hs_notin (descIds_subset_ids tc hmem)),
        h1_other s (fun he => hc_ne_s he.symm), hs]
    refine ⟨?_, ?_, ?_, ?_⟩
    · exact appendChildH_same h2 s tc.topId sd h2_at_s
    · rw [appendChildH_other h2 s tc.topId tc.topId hc_ne_s,
        hspec.1 tc.topId (topId_notin_descIds tc hnd), h1_at_c]
    · intro x hx
      obtain ⟨d, hd1, hd2⟩ := h2_upd x hx
      have hx_desc : x.1 ∈ descIds tc := assignBelow_fst_mem hx
      have hx_ne_c : x.1 ≠ tc.topId := fun he =>
        topId_notin_descIds tc hnd (he ▸ hx_desc)
      have hx_ne_s : x.1 ≠ s := fun he =>
        hs_notin (he ▸ descIds_subset_ids tc hx_desc)
      refine ⟨d, by rw [← h1_other x.1 hx_ne_c]; exact hd1, ?_⟩
      rw [appendChildH_other h2 s tc.topId x.1 hx_ne_s, hd2]
    · intro j hj_notin hj_ne_s
      rw [appendChildH_other h2 s tc.topId j hj_ne_s,
        hspec.1 j (fun hmem => hj_notin (descIds_subset_ids tc hmem)),
        h1_other j (fun he => hj_notin (he ▸ topId_mem_ids tc))]

/-- Claim C1, amended: `add_child(child)` has no failure path. It always
appends `child` to the receiver's `children` (first conjunct, with no
hypothesis about the relative position of the two nodes — including when
`child` is an ancestor of the receiver, which silently creates a cycle,
exhibited concretely by the counterexample theorem). When `child` is the
root of a well-formed subtree not containing the receiver (the ordinary
case), it additionally sets `child.parent` to the receiver, sets
`child.level` to the receiver's level plus one, renumbers `child`'s whole
subtree accordingly, and touches nothing else. -/
theorem claim_C1_amended :
    (∀ (fuel : Nat) (h : Heap) (s c : Nat) (sd : NodeData), h s = some sd →
      kidsView (add_childH fuel h s c) s = some (sd.children ++ [c])) ∧
    (∀ (fuel : Nat) (h : Heap) (s : Nat) (tc : ITree) (sd cd : NodeData),
      shapeOK h tc = true → tc.ids.Nodup → tc.height ≤ fuel →
      s ∉ tc.ids → h s = some sd → h tc.topId = some cd →
      (add_childH fuel h s tc.topId) s =
        some { sd with children := sd.children ++ [tc.topId] } ∧
      (add_childH fuel h s tc.topId) tc.topId =
        some { cd with parent := some s, level := sd.level + 1 } ∧
      (∀ x ∈ assignBelow tc (sd.level + 1), ∃ d, h x.1 = some d ∧
        (add_childH fuel h s tc.topId) x.1 =
          some { d with parent := some x.2.1, level := x.2.2 }) ∧
      (∀ j, j ∉ tc.ids → j ≠ s → (add_childH fuel h s tc.topId) j = h j)) :=
  ⟨add_child_appends, add_child_spec⟩

theorem claim_C1_amended_witness :
    kidsView (add_childH 1 (fun j => if j = 5 then
        some ⟨"Parent", "P", [], [], "", 0, none⟩
      else if j = 7 then some ⟨"Kid", "K", [], [], "", 4, some 9⟩
      else none) 5 7) 5 = some [7] ∧
    (add_childH 1 (fun j => if j = 5 then
        some ⟨"Parent", "P", [], [], "", 0, none⟩
      else if j = 7 then some ⟨"Kid", "K", [], [], "", 4, some 9⟩
      else none) 5 7) 7 = some ⟨"Kid", "K", [], [], "", 1, some 5⟩ := by
  constructor
  · exact claim_C1_amended.1 1 _ 5 7 ⟨"Parent", "P", [], [], "", 0, none⟩ rfl
  · exact (claim_C1_amended.2 1 _ 5 (.node 7 [])
      ⟨"Parent", "P", [], [], "", 0, none⟩ ⟨"Kid", "K", [], [], "", 4, some 9⟩
      (by decide) (by decide) (by decide) (by decide) rfl rfl).2.1

/-- Claim C1, counterexample: in `cycleHeap`, node 0 (the root, code "R")
is an ancestor of node 1 (its child, code "C"). Calling
`add_child` on node 1 with node 0 as the argument — which the claim says
must fail with an explicit error and leave the tree unchanged — instead
runs to completion (the method has no failure path), changes the tree
(node 1's children go from `[]` to `[0]`), and produces a cycle: 0 and 1
are now each other's children, and node 0's parent points back down at
node 1. -/
theorem claim_C1_counterexample :
    kidsView (add_childH 4 cycleHeap 1 0) 1 = some [0] ∧
    kidsView cycleHeap 1 = some [] ∧
    kidsView (add_childH 4 cycleHeap 1 0) 0 = some [1] ∧
    parentOfH (add_childH 4 cycleHeap 1 0) 0 = some 1 ∧
    levelOfH (add_childH 4 cycleHeap 1 0) 0 = 2 := by
  decide

/-! ## `walk` over the heap -/

theorem walkKidsGo_cons (rec : Heap → Nat → List Nat) (h : Heap) (c : Nat)
    (cs : List Nat) :
    walkKidsGo rec h (c :: cs) = rec h c ++ walkKidsGo rec h cs := rfl

mutual

theorem walk_spec : ∀ (t : ITree) (fuel : Nat) (h : Heap),
    shapeOK h t = true → t.height ≤ fuel → walkH fuel h t.topId = t.ids
  | .node i cs, fuel, h, hsh, hfuel => by
    obtain ⟨d, hd, hdch, hall⟩ := shapeOK_node hsh
    rw [ITree.height] at hfuel
    cases fuel with
    | zero => omega
    | succ f =>
      show walkH (f + 1) h i = (ITree.node i cs).ids
      rw [walkH, hd, ITree.ids]
      show i :: walkKidsGo (fun hh cc => walkH f hh cc) h d.children =
        i :: idsList cs
      rw [hdch, walkKids_spec cs f h hall (by omega)]

theorem walkKids_spec : ∀ (cs : List ITree) (f : Nat) (h : Heap),
    shapeAll h cs = true → heightList cs ≤ f →
    walkKidsGo (fun hh cc => walkH f hh cc) h (topIds cs) = idsList cs
  | [], _, _, _, _ => rfl
  | tc :: cs', f, h, hall, hf => by
    obtain ⟨hsh_tc, hall'⟩ := shapeAll_cons.mp hall
    rw [topIds_cons, walkKidsGo_cons, idsList,
      walk_spec tc f h hsh_tc
        (Nat.le_trans (height_le_of_mem (List.mem_cons_self tc cs')) hf),
      walkKids_spec cs' f h hall' (by rw [heightList] at hf; omega)]

end

/-! ## Chains -/

theorem goodChain_cons {h : Heap} {j : Nat} {rest : List Nat} {d : NodeData}
    (hd : h j = some d) :
    goodChain h (j :: rest) ↔
      d.level = rest.length ∧ d.parent = rest.head? ∧ goodChain h rest := by
  rw [goodChain, hd]

theorem goodChain_congr : ∀ (c : List Nat) (h1 h2 : Heap),
    (∀ x ∈ c, plView h1 x = plView h2 x) →
    (goodChain h1 c ↔ goodChain h2 c)
  | [], _, _, _ => Iff.rfl
  | j :: rest, h1, h2, hpl => by
    have hj := hpl j (List.mem_cons_self j rest)
    have hrest := goodChain_congr rest h1 h2
      (fun x hx => hpl x (List.mem_cons_of_mem j hx))
    cases hd1 : h1 j with
    | none =>
      rw [plView, hd1] at hj
      cases hd2 : h2 j with
      | none => rw [goodChain, hd1, goodChain, hd2]
      | some d2 => rw [plView, hd2] at hj; exact absurd hj.symm (by simp)
    | some d1 =>
      rw [plView, hd1] at hj
      cases hd2 : h2 j with
      | none => rw [plView, hd2] at hj; exact absurd hj (by simp)
      | some d2 =>
        rw [plView, hd2] at hj
        have hj' : d1.parent = d2.parent ∧ d1.level = d2.level := by
          simpa using hj
        rw [goodChain_cons hd1, goodChain_cons hd2, hj'.1, hj'.2, hrest]

theorem goodChain_levelOf {h : Heap} {j : Nat} {rest : List Nat}
    (hg : goodChain h (j :: rest)) : levelOfH h j = rest.length := by
  rw [goodChain] at hg
  cases hd : h j with
  | none => rw [hd] at hg; exact absurd hg (by simp)
  | some d =>
    rw [hd] at hg
    rw [levelOfH, hd]
    exact hg.1

theorem goodChain_parentOf {h : Heap} {j : Nat} {rest : List Nat}
    (hg : goodChain h (j :: rest)) : parentOfH h j = rest.head? := by
  rw [goodChain] at hg
  cases hd : h j with
  | none => rw [hd] at hg; exact absurd hg (by simp)
  | some d =>
    rw [hd] at hg
    rw [parentOfH, hd]
    exact hg.2.1

theorem goodChain_tail {h : Heap} {j : Nat} {rest : List Nat}
    (hg : goodChain h (j :: rest)) : goodChain h rest := by
  rw [goodChain] at hg
  cases hd : h j with
  | none => rw [hd] at hg; exact absurd hg (by simp)
  | some d =>
    rw [hd] at hg
    exact hg.2.2

theorem goodChain_iter : ∀ (k : Nat) (c : List Nat) (h : Heap),
    goodChain h c → k < c.length →
    iterParentH h k c.headI = some ((c.drop k).headI) ∧
      goodChain h (c.drop k)
  | 0, c, h, hg, hk => by
    cases c with
    | nil => simp at hk
    | cons j rest => exact ⟨rfl, hg⟩
  | k + 1, c, h, hg, hk => by
    cases c with
    | nil => simp at hk
    | cons j rest =>
      cases rest with
      | nil => simp at hk
      | cons p rest' =>
        have hpar : parentOfH h j = some p := goodChain_parentOf hg
        have htail : goodChain h (p :: rest') := goodChain_tail hg
        have hk' : k < (p :: rest').length := by
          simp at hk ⊢
          omega
        have ih := goodChain_iter k (p :: rest') h htail hk'
        constructor
        · show iterParentH h (k + 1) j = _
          rw [iterParentH, hpar]
          exact ih.1
        · exact ih.2

theorem iterParentH_succ (h : Heap) (k i : Nat) :
    iterParentH h (k + 1) i =
      match parentOfH h i with
      | none => none
      | some p => iterParentH h k p := rfl

theorem iterParent_add (h : Heap) : ∀ (a b i : Nat),
    iterParentH h (a + b) i =
      match iterParentH h a i with
      | none => none
      | some m => iterParentH h b m
  | 0, b, i => by rw [Nat.zero_add]; rfl
  | a + 1, b, i => by
    rw [show a + 1 + b = (a + b) + 1 by omega]
    rw [iterParentH, iterParentH]
    cases parentOfH h i with
    | none => rfl
    | some p => exact iterParent_add h a b p

theorem goodChain_pathUp : ∀ (c : List Nat) (fuel : Nat) (h : Heap),
    goodChain h c → c.length ≤ fuel → c ≠ [] →
    pathUpH fuel h c.headI = c.map (codeOfH h)
  | [], _, _, _, _, hne => absurd rfl hne
  | j :: rest, fuel, h, hg, hlen, _ => by
    have hlen' : rest.length + 1 ≤ fuel := by simpa using hlen
    cases fuel with
    | zero => omega
    | succ f =>
      rw [goodChain] at hg
      cases hd : h j with
      | none => rw [hd] at hg; exact absurd hg (by simp)
      | some d =>
        rw [hd] at hg
        show pathUpH (f + 1) h j = _
        have hcode : codeOfH h j = d.code := by rw [codeOfH, hd]
        cases rest with
        | nil =>
          have hpar : d.parent = none := by simpa using hg.2.1
          simp [pathUpH, hd, hpar, hcode]
        | cons p rest' =>
          have hpar : d.parent = some p := by simpa using hg.2.1
          have ih : pathUpH f h p = (p :: rest').map (codeOfH h) :=
            goodChain_pathUp (p :: rest') f h hg.2.2
              (by simp at hlen' ⊢; omega) (by simp)
          simp [pathUpH, hd, hpar, hcode, ih]

mutual

theorem chainsFrom_length_ge : ∀ (t : ITree) (acc : List Nat)
    (c : List Nat), c ∈ chainsFrom t acc → acc.length + 1 ≤ c.length
  | .node i cs, acc, c, hc => by
    rw [chainsFrom] at hc
    rcases List.mem_cons.mp hc with rfl | hc'
    · simp
    · have := chainsList_length_ge cs (i :: acc) c hc'
      simp at this
      omega

theorem chainsList_length_ge : ∀ (cs : List ITree) (acc : List Nat)
    (c : List Nat), c ∈ chainsList cs acc → acc.length + 1 ≤ c.length
  | [], _, c, hc => absurd hc (List.not_mem_nil c)
  | tc :: cs', acc, c, hc => by
    rw [chainsList] at hc
    rcases List.mem_append.mp hc with hc' | hc'
    · have := chainsFrom_length_ge tc acc c hc'
      omega
    · exact chainsList_length_ge cs' acc c hc'

end

mutual

theorem chainsFrom_length_le : ∀ (t : ITree) (acc : List Nat)
    (c : List Nat), c ∈ chainsFrom t acc →
    c.length ≤ t.height + acc.length
  | .node i cs, acc, c, hc => by
    rw [chainsFrom] at hc
    rw [ITree.height]
    rcases List.mem_cons.mp hc with rfl | hc'
    · simp
      omega
    · have := chainsList_length_le cs (i :: acc) c hc'
      simp at this
      omega

theorem chainsList_length_le : ∀ (cs : List ITree) (acc : List Nat)
    (c : List Nat), c ∈ chainsList cs acc →
    c.length ≤ heightList cs + acc.length
  | [], _, c, hc => absurd hc (List.not_mem_nil c)
  | tc :: cs', acc, c, hc => by
    rw [chainsList] at hc
    rw [heightList]
    rcases List.mem_append.mp hc with hc' | hc'
    · have := chainsFrom_length_le tc acc c hc'
      have h2 := Nat.le_max_left tc.height (heightList cs')
      omega
    · have := chainsList_length_le cs' acc c hc'
      have h2 := Nat.le_max_right tc.height (heightList cs')
      omega

end

mutual

theorem chainsFrom_drop : ∀ (t : ITree) (acc : List Nat) (c : List Nat),
    c ∈ chainsFrom t acc →
    c.drop (c.length - (acc.length + 1)) = t.topId :: acc
  | .node i cs, acc, c, hc => by
    rw [chainsFrom] at hc
    rcases List.mem_cons.mp hc with rfl | hc'
    · simp [ITree.topId]
    · have hdr := chainsList_drop cs (i :: acc) c hc'
      simp only [List.length_cons] at hdr
      simpa [ITree.topId] using hdr

theorem chainsList_drop : ∀ (cs : List ITree) (acc : List Nat) (c : List Nat),
    c ∈ chainsList cs acc →
    c.drop (c.length - acc.length) = acc
  | [], _, c, hc => absurd hc (List.not_mem_nil c)
  | tc :: cs', acc, c, hc => by
    rw [chainsList] at hc
    rcases List.mem_append.mp hc with hc' | hc'
    · have hdr := chainsFrom_drop tc acc c hc'
      have hlen := chainsFrom_length_ge tc acc c hc'
      rw [show c.length - acc.length =
          (c.length - (acc.length + 1)) + 1 by omega, ← List.drop_drop, hdr]
      rfl
    · exact chainsList_drop cs' acc c hc'

end

mutual

theorem chainsFrom_headI : ∀ (t : ITree) (acc : List Nat),
    (chainsFrom t acc).map List.headI = t.ids
  | .node i cs, acc => by
    rw [chainsFrom, ITree.ids, List.map_cons]
    show i :: (chainsList cs (i :: acc)).map List.headI = i :: idsList cs
    rw [chainsList_headI cs (i :: acc)]

theorem chainsList_headI : ∀ (cs : List ITree) (acc : List Nat),
    (chainsList cs acc).map List.headI = idsList cs
  | [], _ => rfl
  | tc :: cs', acc => by
    rw [chainsList, idsList, List.map_append, chainsFrom_headI tc acc,
      chainsList_headI cs' acc]

end

theorem ids_sub_idsList : ∀ {cs : List ITree} {tc : ITree}, tc ∈ cs →
    ∀ {y : Nat}, y ∈ tc.ids → y ∈ idsList cs := by
  intro cs
  induction cs with
  | nil => intro tc htc; cases htc
  | cons c cs ih =>
    intro tc htc y hy
    rw [idsList]
    rcases List.mem_cons.mp htc with rfl | htc'
    · exact List.mem_append_left _ hy
    · exact List.mem_append_right _ (ih htc' hy)

mutual

theorem chainsFrom_mem_sub : ∀ (t : ITree) (acc : List Nat) (c : List Nat),
    c ∈ chainsFrom t acc → ∀ x ∈ c, x ∈ t.ids ∨ x ∈ acc
  | .node i cs, acc, c, hc => by
    rw [chainsFrom] at hc
    rcases List.mem_cons.mp hc with rfl | hc'
    · intro x hx
      rcases List.mem_cons.mp hx with rfl | hx'
      · exact Or.inl (topId_mem_ids _)
      · exact Or.inr hx'
    · intro x hx
      rcases chainsList_mem_sub cs (i :: acc) c hc' x hx with hin | hin
      · exact Or.inl (by rw [ITree.ids]; exact List.mem_cons_of_mem i hin)
      · rcases List.mem_cons.mp hin with rfl | hin'
        · exact Or.inl (topId_mem_ids _)
        · exact Or.inr hin'

theorem chainsList_mem_sub : ∀ (cs : List ITree) (acc : List Nat)
    (c : List Nat), c ∈ chainsList cs acc →
    ∀ x ∈ c, x ∈ idsList cs ∨ x ∈ acc
  | [], _, c, hc => absurd hc (List.not_mem_nil c)
  | tc :: cs', acc, c, hc => by
    rw [chainsList] at hc
    intro x hx
    rcases List.mem_append.mp hc with hc' | hc'
    · rcases chainsFrom_mem_sub tc acc c hc' x hx with hin | hin
      · exact Or.inl (by rw [idsList]; exact List.mem_append_left _ hin)
      · exact Or.inr hin
    · rcases chainsList_mem_sub cs' acc c hc' x hx with hin | hin
      · exact Or.inl (by rw [idsList]; exact List.mem_append_right _ hin)
      · exact Or.inr hin

end

mutual

theorem chains_good : ∀ (t : ITree) (acc : List Nat) (H : Heap),
    goodChain H (t.topId :: acc) →
    (∀ x ∈ assignBelow t acc.length, ∃ d, H x.1 = some d ∧
      d.parent = some x.2.1 ∧ d.level = x.2.2) →
    ∀ c ∈ chainsFrom t acc, goodChain H c
  | .node i cs, acc, H, hroot, hassign => by
    intro c hc
    rw [chainsFrom] at hc
    rcases List.mem_cons.mp hc with rfl | hc'
    · exact hroot
    · exact chains_good_forest cs i acc H hroot hassign c hc'

theorem chains_good_forest : ∀ (cs : List ITree) (i : Nat) (acc : List Nat)
    (H : Heap),
    goodChain H (i :: acc) →
    (∀ x ∈ assignKids cs i acc.length, ∃ d, H x.1 = some d ∧
      d.parent = some x.2.1 ∧ d.level = x.2.2) →
    ∀ c ∈ chainsList cs (i :: acc), goodChain H c
  | [], _, _, _, _, _ => by
    intro c hc
    exact absurd hc (List.not_mem_nil c)
  | tc :: cs', i, acc, H, hroot, hassign => by
    intro c hc
    rw [chainsList] at hc
    rcases List.mem_append.mp hc with hc' | hc'
    · refine chains_good tc (i :: acc) H ?_ ?_ c hc'
      · obtain ⟨d, hd, hp, hl⟩ := hassign (tc.topId, i, acc.length + 1)
          (by rw [assignKids]; exact List.mem_cons_self _ _)
        rw [goodChain_cons hd]
        exact ⟨by simpa using hl, by simpa using hp, hroot⟩
      · intro x hx
        refine hassign x ?_
        rw [assignKids]
        refine List.mem_cons_of_mem _ (List.mem_append_left _ ?_)
        simpa using hx
    · refine chains_good_forest cs' i acc H hroot ?_ c hc'
      intro x hx
      refine hassign x ?_
      rw [assignKids]
      exact List.mem_cons_of_mem _ (List.mem_append_right _ hx)

end

/-! ## Grafting a subtree (the shape-level effect of `add_child`) -/

theorem graft_topId : ∀ (t : ITree) (j : Nat) (tc : ITree),
    (graft t j tc).topId = t.topId
  | .node i cs, j, tc => by
    rw [graft]
    split <;> rfl

theorem topIds_graftList : ∀ (cs : List ITree) (j : Nat) (tc : ITree),
    topIds (graftList cs j tc) = topIds cs
  | [], _, _ => rfl
  | t :: ts, j, tc => by
    rw [graftList, topIds_cons, topIds_cons, graft_topId,
      topIds_graftList ts j tc]

mutual

theorem graft_not_mem : ∀ (t : ITree) (j : Nat) (tc : ITree),
    j ∉ t.ids → graft t j tc = t
  | .node i cs, j, tc, hj => by
    rw [ITree.ids] at hj
    rw [graft,
      if_neg (fun he => hj (by rw [← he]; exact List.mem_cons_self i _)),
      graftList_not_mem cs j tc
        (fun hmem => hj (List.mem_cons_of_mem i hmem))]

theorem graftList_not_mem : ∀ (cs : List ITree) (j : Nat) (tc : ITree),
    j ∉ idsList cs → graftList cs j tc = cs
  | [], _, _, _ => rfl
  | t :: ts, j, tc, hj => by
    rw [idsList] at hj
    rw [graftList,
      graft_not_mem t j tc (fun hmem => hj (List.mem_append_left _ hmem)),
      graftList_not_mem ts j tc (fun hmem => hj (List.mem_append_right _ hmem))]

end

mutual

theorem ids_graft_perm : ∀ (t : ITree) (j : Nat) (tc : ITree),
    j ∈ t.ids → t.ids.Nodup →
    (graft t j tc).ids.Perm (t.ids ++ tc.ids)
  | .node i cs, j, tc, hj, hnd => by
    by_cases hij : i = j
    · rw [graft, if_pos hij, ITree.ids, ITree.ids, idsList_append]
      have h1 : idsList [tc] = tc.ids := by rw [idsList, idsList, List.append_nil]
      rw [h1, List.cons_append]
    · rw [ITree.ids] at hj hnd
      have hj' : j ∈ idsList cs := by
        rcases List.mem_cons.mp hj with he | hm
        · exact absurd he.symm hij
        · exact hm
      rw [graft, if_neg hij, ITree.ids, ITree.ids, List.cons_append]
      exact (idsList_graftList_perm cs j tc hj'
        (List.nodup_cons.mp hnd).2).cons i

theorem idsList_graftList_perm : ∀ (cs : List ITree) (j : Nat) (tc : ITree),
    j ∈ idsList cs → (idsList cs).Nodup →
    (idsList (graftList cs j tc)).Perm (idsList cs ++ tc.ids)
  | [], j, tc, hj, _ => absurd hj (List.not_mem_nil j)
  | t1 :: rest, j, tc, hj, hnd => by
    rw [idsList] at hj hnd
    have hnd' := List.nodup_append.mp hnd
    by_cases hj1 : j ∈ t1.ids
    · have hjr : j ∉ idsList rest := fun hmem => hnd'.2.2 hj1 hmem
      rw [graftList, graftList_not_mem rest j tc hjr, idsList, idsList,
        List.append_assoc]
      refine ((ids_graft_perm t1 j tc hj1 hnd'.1).append_right _).trans ?_
      rw [List.append_assoc]
      exact List.Perm.append_left _ List.perm_append_comm
    · have hjr : j ∈ idsList rest := by
        rcases List.mem_append.mp hj with hm | hm
        · exact absurd hm hj1
        · exact hm
      rw [graftList, graft_not_mem t1 j tc hj1, idsList, idsList,
        List.append_assoc]
      exact List.Perm.append_left _
        (idsList_graftList_perm rest j tc hjr hnd'.2.1)

end

theorem shapeAll_append (h : Heap) : ∀ xs ys : List ITree,
    shapeAll h (xs ++ ys) = (shapeAll h xs && shapeAll h ys)
  | [], ys => by rw [List.nil_append, shapeAll, Bool.true_and]
  | t :: ts, ys => by
    rw [List.cons_append, shapeAll, shapeAll, shapeAll_append h ts ys,
      Bool.and_assoc]

theorem shapeOK_of_kidsView (cs : List ITree) {h : Heap} {i : Nat}
    (hkv : kidsView h i = some (topIds cs)) (hall : shapeAll h cs = true) :
    shapeOK h (.node i cs) = true := by
  obtain ⟨d, hd, hdch⟩ := Option.map_eq_some'.mp hkv
  rw [shapeOK, hd]
  simp [hdch, hall]

mutual

theorem shape_lookup_of_mem : ∀ (t : ITree) (h : Heap) (j : Nat),
    shapeOK h t = true → j ∈ t.ids → ∃ d, h j = some d
  | .node i cs, h, j, hsh, hj => by
    obtain ⟨d, hd, _, hall⟩ := shapeOK_node hsh
    rw [ITree.ids] at hj
    rcases List.mem_cons.mp hj with rfl | hj'
    · exact ⟨d, hd⟩
    · exact shapeAll_lookup_of_mem cs h j hall hj'

theorem shapeAll_lookup_of_mem : ∀ (cs : List ITree) (h : Heap) (j : Nat),
    shapeAll h cs = true → j ∈ idsList cs → ∃ d, h j = some d
  | [], _, j, _, hj => absurd hj (List.not_mem_nil j)
  | tc :: cs', h, j, hall, hj => by
    obtain ⟨hsh_tc, hall'⟩ := shapeAll_cons.mp hall
    rw [idsList] at hj
    rcases List.mem_append.mp hj with hj' | hj'
    · exact shape_lookup_of_mem tc h j hsh_tc hj'
    · exact shapeAll_lookup_of_mem cs' h j hall' hj'

end

mutual

theorem shape_graft : ∀ (t : ITree) (j : Nat) (tc : ITree) (h H : Heap),
    shapeOK h t = true → t.ids.Nodup → j ∈ t.ids →
    shapeOK h tc = true → j ∉ tc.ids →
    (∀ x, x ≠ j → kidsView H x = kidsView h x) →
    kidsView H j = (kidsView h j).map (fun l => l ++ [tc.topId]) →
    shapeOK H (graft t j tc) = true
  | .node i cs, j, tc, h, H, hsh, hnd, hj, hsh_tc, hj_tc, hother, hat => by
    obtain ⟨d, hd, hdch, hall⟩ := shapeOK_node hsh
    rw [ITree.ids] at hnd
    have hnd' := List.nodup_cons.mp hnd
    have hsh_tc' : shapeOK H tc = true := by
      rw [shapeOK_congr_on tc H h (fun x hx => hother x
        (fun he => hj_tc (he ▸ hx)))]
      exact hsh_tc
    by_cases hij : i = j
    · subst hij
      have hkv : kidsView H i = some (topIds cs ++ [tc.topId]) := by
        rw [hat, kidsView, hd]
        simp [hdch]
      rw [graft, if_pos rfl]
      refine shapeOK_of_kidsView (cs ++ [tc]) ?_ ?_
      · rw [topIds_append, hkv]
        rfl
      · rw [shapeAll_append]
        have hcs : shapeAll H cs = true := by
          rw [shapeAll_congr_on cs H h (fun x hx => hother x
            (fun he => hnd'.1 (he ▸ hx)))]
          exact hall
        rw [hcs, shapeAll, shapeAll, hsh_tc']
        rfl
    · have hj' : j ∈ idsList cs := by
        rcases List.mem_cons.mp hj with he | hm
        · exact absurd he.symm hij
        · exact hm
      rw [graft, if_neg hij]
      refine shapeOK_of_kidsView (graftList cs j tc) ?_ ?_
      · rw [topIds_graftList, hother i hij, kidsView, hd]
        simp [hdch]
      · exact shapeAll_graftList cs j tc h H hall hnd'.2 hj' hsh_tc hj_tc
          hother hat

theorem shapeAll_graftList : ∀ (cs : List ITree) (j : Nat) (tc : ITree)
    (h H : Heap),
    shapeAll h cs = true → (idsList cs).Nodup → j ∈ idsList cs →
    shapeOK h tc = true → j ∉ tc.ids →
    (∀ x, x ≠ j → kidsView H x = kidsView h x) →
    kidsView H j = (kidsView h j).map (fun l => l ++ [tc.topId]) →
    shapeAll H (graftList cs j tc) = true
  | [], j, _, _, _, _, _, hj, _, _, _, _ => absurd hj (List.not_mem_nil j)
  | t1 :: rest, j, tc, h, H, hall, hnd, hj, hsh_tc, hj_tc, hother, hat => by
    obtain ⟨hsh1, hall'⟩ := shapeAll_cons.mp hall
    rw [idsList] at hj hnd
    have hnd' := List.nodup_append.mp hnd
    rw [graftList]
    by_cases hj1 : j ∈ t1.ids
    · have hjr : j ∉ idsList rest := fun hmem => hnd'.2.2 hj1 hmem
      rw [graftList_not_mem rest j tc hjr]
      refine shapeAll_cons.mpr ⟨shape_graft t1 j tc h H hsh1 hnd'.1 hj1
        hsh_tc hj_tc hother hat, ?_⟩
      rw [shapeAll_congr_on rest H h (fun x hx => hother x
        (fun he => hjr (he ▸ hx)))]
      exact hall'
    · have hjr : j ∈ idsList rest := by
        rcases List.mem_append.mp hj with hm | hm
        · exact absurd hm hj1
        · exact hm
      rw [graft_not_mem t1 j tc hj1]
      refine shapeAll_cons.mpr ⟨?_, shapeAll_graftList rest j tc h H hall'
        hnd'.2.1 hjr hsh_tc hj_tc hother hat⟩
      rw [shapeOK_congr_on t1 H h (fun x hx => hother x
        (fun he => hj1 (he ▸ hx)))]
      exact hsh1

end

theorem chainsList_append_chains (cs1 cs2 : List ITree) (acc : List Nat) :
    chainsList (cs1 ++ cs2) acc = chainsList cs1 acc ++ chainsList cs2 acc := by
  induction cs1 with
  | nil => rfl
  | cons t ts ih => rw [List.cons_append, chainsList, chainsList, ih,
      List.append_assoc]

mutual

theorem chains_graft_sub : ∀ (t : ITree) (j : Nat) (tc : ITree)
    (acc : List Nat), t.ids.Nodup → j ∈ t.ids →
    ∀ c ∈ chainsFrom (graft t j tc) acc,
      c ∈ chainsFrom t acc ∨
      ∃ cj ∈ chainsFrom t acc, cj.headI = j ∧ c ∈ chainsFrom tc cj
  | .node i cs, j, tc, acc, hnd, hj => by
    intro c hc
    rw [ITree.ids] at hnd hj
    have hnd' := List.nodup_cons.mp hnd
    by_cases hij : i = j
    · subst hij
      rw [graft, if_pos rfl, chainsFrom, chainsList_append_chains] at hc
      rcases List.mem_cons.mp hc with rfl | hc'
      · exact Or.inl (by rw [chainsFrom]; exact List.mem_cons_self _ _)
      rcases List.mem_append.mp hc' with hc'' | hc''
      · exact Or.inl (by rw [chainsFrom]; exact List.mem_cons_of_mem _ hc'')
      · rw [chainsList, chainsList, List.append_nil] at hc''
        refine Or.inr ⟨i :: acc, ?_, rfl, hc''⟩
        rw [chainsFrom]
        exact List.mem_cons_self _ _
    · have hj' : j ∈ idsList cs := by
        rcases List.mem_cons.mp hj with he | hm
        · exact absurd he.symm hij
        · exact hm
      rw [graft, if_neg hij, chainsFrom] at hc
      rcases List.mem_cons.mp hc with rfl | hc'
      · exact Or.inl (by rw [chainsFrom]; exact List.mem_cons_self _ _)
      · rcases chainsList_graft_sub cs j tc (i :: acc) hnd'.2 hj' c hc'
          with hold | ⟨cj, hcj, hhead, hnew⟩
        · exact Or.inl (by rw [chainsFrom]; exact List.mem_cons_of_mem _ hold)
        · exact Or.inr ⟨cj,
            by rw [chainsFrom]; exact List.mem_cons_of_mem _ hcj, hhead, hnew⟩

theorem chainsList_graft_sub : ∀ (cs : List ITree) (j : Nat) (tc : ITree)
    (acc : List Nat), (idsList cs).Nodup → j ∈ idsList cs →
    ∀ c ∈ chainsList (graftList cs j tc) acc,
      c ∈ chainsList cs acc ∨
      ∃ cj ∈ chainsList cs acc, cj.headI = j ∧ c ∈ chainsFrom tc cj
  | [], j, _, _, _, hj => absurd hj (List.not_mem_nil j)
  | t1 :: rest, j, tc, acc, hnd, hj => by
    intro c hc
    rw [idsList] at hnd hj
    have hnd' := List.nodup_append.mp hnd
    rw [graftList, chainsList] at hc
    by_cases hj1 : j ∈ t1.ids
    · have hjr : j ∉ idsList rest := fun hmem => hnd'.2.2 hj1 hmem
      rw [graftList_not_mem rest j tc hjr] at hc
      rcases List.mem_append.mp hc with hc' | hc'
      · rcases chains_graft_sub t1 j tc acc hnd'.1 hj1 c hc'
          with hold | ⟨cj, hcj, hhead, hnew⟩
        · exact Or.inl (by rw [chainsList]; exact List.mem_append_left _ hold)
        · exact Or.inr ⟨cj,
            by rw [chainsList]; exact List.mem_append_left _ hcj, hhead, hnew⟩
      · exact Or.inl (by rw [chainsList]; exact List.mem_append_right _ hc')
    · have hjr : j ∈ idsList rest := by
        rcases List.mem_append.mp hj with hm | hm
        · exact absurd hm hj1
        · exact hm
      rw [graft_not_mem t1 j tc hj1] at hc
      rcases List.mem_append.mp hc with hc' | hc'
      · exact Or.inl (by rw [chainsList]; exact List.mem_append_left _ hc')
      · rcases chainsList_graft_sub rest j tc acc hnd'.2.1 hjr c hc'
          with hold | ⟨cj, hcj, hhead, hnew⟩
        · exact Or.inl (by rw [chainsList]; exact List.mem_append_right _ hold)
        · exact Or.inr ⟨cj,
            by rw [chainsList]; exact List.mem_append_right _ hcj, hhead, hnew⟩

end

/-! ## Level/parent consistency: establishment, preservation, consequences -/

/-- Nested literal construction — running the fix-up from a root whose
level is 0 and whose parent is none — makes the whole heap tree
consistent. -/
theorem postInit_consistent (t : ITree) (fuel : Nat) (h : Heap)
    (d0 : NodeData) (hsh : shapeOK h t = true) (hnd : t.ids.Nodup)
    (hfuel : t.height ≤ fuel) (hd0 : h t.topId = some d0)
    (hlv : d0.level = 0) (hpar : d0.parent = none) :
    consistentOn (postInitH fuel h t.topId) t ∧
      shapeOK (postInitH fuel h t.topId) t = true := by
  have hspec := postInit_spec t fuel h hsh hnd hfuel
  have hroot : postInitH fuel h t.topId (t.topId) = some d0 := by
    rw [hspec.1 _ (topId_notin_descIds t hnd), hd0]
  constructor
  · intro c hc
    refine chains_good t [] (postInitH fuel h t.topId) ?_ ?_ c hc
    · rw [goodChain_cons hroot]
      exact ⟨by simpa using hlv, by simpa using hpar, trivial⟩
    · have hlv0 : levelOfH h t.topId = 0 := by
        rw [levelOfH, hd0]
        exact hlv
      intro x hx
      have hx' : x ∈ assignBelow t (levelOfH h t.topId) := by
        rw [hlv0]
        simpa using hx
      obtain ⟨d, _, hfin⟩ := hspec.2 x hx'
      exact ⟨_, hfin, rfl, rfl⟩
  · rw [shapeOK_postInitH]
    exact hsh

/-- Python `add_child` of a fresh well-formed subtree under any node of a
consistent tree yields the consistent grafted tree. -/
theorem add_child_consistent (t tc : ITree) (fuel : Nat) (h : Heap) (j : Nat)
    (hcons : consistentOn h t) (hsh_t : shapeOK h t = true)
    (hnd_t : t.ids.Nodup) (hsh_tc : shapeOK h tc = true)
    (hnd_tc : tc.ids.Nodup) (hdisj : ∀ a ∈ tc.ids, a ∉ t.ids)
    (hj : j ∈ t.ids) (hfuel : tc.height ≤ fuel) :
    consistentOn (add_childH fuel h j tc.topId) (graft t j tc) ∧
      shapeOK (add_childH fuel h j tc.topId) (graft t j tc) = true ∧
      (graft t j tc).ids.Nodup := by
  obtain ⟨sd, hsd⟩ := shape_lookup_of_mem t h j hsh_t hj
  obtain ⟨cd, hcd⟩ := shapeOK_lookup hsh_tc
  have hj_tc : j ∉ tc.ids := fun hmem => hdisj j hmem hj
  obtain ⟨hS, hC, hupd, hframe⟩ :=
    add_child_spec fuel h j tc sd cd hsh_tc hnd_tc hfuel hj_tc hsd hcd
  have hkv_other : ∀ x, x ≠ j →
      kidsView (add_childH fuel h j tc.topId) x = kidsView h x := by
    intro x hx
    by_cases hxc : x = tc.topId
    · subst hxc
      rw [kidsView, hC, kidsView, hcd]
      rfl
    · by_cases hxd : x ∈ descIds tc
      · rw [← assignBelow_map_fst tc (sd.level + 1)] at hxd
        obtain ⟨y, hy, hyx⟩ := List.mem_map.mp hxd
        obtain ⟨d, hd, hfin⟩ := hupd y hy
        rw [← hyx, kidsView, hfin, kidsView, hd]
        rfl
      · have hx_notin : x ∉ tc.ids := by
          rw [ids_eq]
          intro hmem
          rcases List.mem_cons.mp hmem with he | hm
          · exact hxc he
          · exact hxd hm
        rw [kidsView, hframe x hx_notin hx, kidsView]
  have hkv_j : kidsView (add_childH fuel h j tc.topId) j =
      (kidsView h j).map (fun l => l ++ [tc.topId]) := by
    rw [kidsView, hS, kidsView, hsd]
    rfl
  have hpl : ∀ x, x ∉ tc.ids →
      plView (add_childH fuel h j tc.topId) x = plView h x := by
    intro x hx
    by_cases hxj : x = j
    · subst hxj
      rw [plView, hS, plView, hsd]
      rfl
    · rw [plView, hframe x hx hxj, plView]
  have hshape' : shapeOK (add_childH fuel h j tc.topId) (graft t j tc) = true :=
    shape_graft t j tc h _ hsh_t hnd_t hj hsh_tc hj_tc hkv_other hkv_j
  have hnodup' : (graft t j tc).ids.Nodup := by
    refine ((ids_graft_perm t j tc hj hnd_t).nodup_iff).mpr ?_
    exact List.nodup_append.mpr ⟨hnd_t, hnd_tc, fun a ha hb => hdisj a hb ha⟩
  have hold_chain : ∀ c ∈ chainsFrom t [],
      goodChain (add_childH fuel h j tc.topId) c := by
    intro c hold
    refine (goodChain_congr c _ h ?_).mpr (hcons c hold)
    intro x hx
    have hx_t : x ∈ t.ids := by
      rcases chainsFrom_mem_sub t [] c hold x hx with h1 | h1
      · exact h1
      · exact absurd h1 (List.not_mem_nil x)
    exact hpl x (fun hmem => hdisj x hmem hx_t)
  refine ⟨?_, hshape', hnodup'⟩
  intro c hc
  rcases chains_graft_sub t j tc [] hnd_t hj c hc
    with hold | ⟨cj, hcj, hhead, hnew⟩
  · exact hold_chain c hold
  · have hcj_good : goodChain h cj := hcons cj hcj
    have hcj_goodH : goodChain (add_childH fuel h j tc.topId) cj :=
      hold_chain cj hcj
    have hlen := chainsFrom_length_ge t [] cj hcj
    obtain ⟨rest, rfl⟩ : ∃ rest, cj = j :: rest := by
      cases cj with
      | nil => simp at hlen
      | cons a rest => exact ⟨rest, by rw [show a = j from hhead]⟩
    have hsd_lv : sd.level = rest.length := by
      have hgl := goodChain_levelOf hcj_good
      rw [levelOfH, hsd] at hgl
      exact hgl
    refine chains_good tc (j :: rest) _ ?_ ?_ c hnew
    · rw [goodChain_cons hC]
      refine ⟨by simp [hsd_lv], by simp, hcj_goodH⟩
    · intro x hx
      have hx' : x ∈ assignBelow tc (sd.level + 1) := by
        rw [hsd_lv]
        simpa using hx
      obtain ⟨d, _, hfin⟩ := hupd x hx'
      exact ⟨_, hfin, rfl, rfl⟩

/-- On a consistent heap tree, every node's level counts its parent hops
back to the root, the parent chain reaches the root in exactly that many
steps, the path is the codes from the root down, and `walk` enumerates
exactly the tree's nodes. -/
theorem consistent_conclusions (t : ITree) (H : Heap) (fuel : Nat)
    (hcons : consistentOn H t) (hsh : shapeOK H t = true)
    (hfuel : t.height ≤ fuel) :
    walkH fuel H t.topId = t.ids ∧
    (∀ j ∈ t.ids, ∃ c ∈ chainsFrom t [], c.headI = j) ∧
    (∀ c ∈ chainsFrom t [],
      levelOfH H c.headI = c.length - 1 ∧
      iterParentH H (c.length - 1) c.headI = some t.topId ∧
      (∀ k, iterParentH H k c.headI = some t.topId → k = c.length - 1) ∧
      pathH fuel H c.headI = (c.map (codeOfH H)).reverse) := by
  refine ⟨walk_spec t fuel H hsh hfuel, ?_, ?_⟩
  · intro j hj
    rw [← chainsFrom_headI t []] at hj
    obtain ⟨c, hc, hcj⟩ := List.mem_map.mp hj
    exact ⟨c, hc, hcj⟩
  intro c hc
  have hg := hcons c hc
  have hlen1 : 1 ≤ c.length := by
    have := chainsFrom_length_ge t [] c hc
    simpa using this
  have hdrop : c.drop (c.length - 1) = [t.topId] := by
    have := chainsFrom_drop t [] c hc
    simpa using this
  have hiter := goodChain_iter (c.length - 1) c H hg (by omega)
  have hlast_good : goodChain H [t.topId] := hdrop ▸ hiter.2
  have hlast_lv : levelOfH H t.topId = 0 := by
    simpa using goodChain_levelOf hlast_good
  have hlast_par : parentOfH H t.topId = none := by
    simpa using goodChain_parentOf hlast_good
  have hiter_eq : iterParentH H (c.length - 1) c.headI = some t.topId := by
    rw [hiter.1, hdrop]
    rfl
  refine ⟨?_, hiter_eq, ?_, ?_⟩
  · cases c with
    | nil => simp at hlen1
    | cons a rest => simpa using goodChain_levelOf hg
  · intro k hk
    by_cases hklt : k < c.length - 1
    · exfalso
      have hit := goodChain_iter k c H hg (by omega)
      have hhead : (c.drop k).headI = t.topId := by
        have := hit.1.symm.trans hk
        exact Option.some.inj this
      have hlendrop : (c.drop k).length = c.length - k := by
        simp
      cases hdk : c.drop k with
      | nil => rw [hdk] at hlendrop; simp at hlendrop; omega
      | cons a rest' =>
        have ha : a = t.topId := by
          rw [hdk] at hhead
          simpa using hhead
        have hgd : goodChain H (a :: rest') := hdk ▸ hit.2
        have hla : levelOfH H a = rest'.length := goodChain_levelOf hgd
        rw [ha, hlast_lv] at hla
        have : (c.drop k).length = rest'.length + 1 := by rw [hdk]; rfl
        rw [hlendrop] at this
        omega
    · by_cases hkeq : k = c.length - 1
      · exact hkeq
      · exfalso
        have hkgt : c.length - 1 < k := by omega
        rw [show k = (c.length - 1) + (k - (c.length - 1)) by omega,
          iterParent_add, hiter_eq] at hk
        have hk' : iterParentH H (k - (c.length - 1)) t.topId = some t.topId := hk
        rw [show k - (c.length - 1) = (k - (c.length - 1) - 1) + 1 by omega,
          iterParentH_succ, hlast_par] at hk'
        exact Option.noConfusion hk'
  · have hclen : c.length ≤ fuel := by
      have := chainsFrom_length_le t [] c hc
      simp at this
      omega
    have hpu := goodChain_pathUp c fuel H hg hclen
      (by cases c with | nil => simp at hlen1 | cons a r => simp)
    rw [pathH, hpu]

/-- Claim C4: for trees built by nested literal construction (the fix-up
run from a root with level 0 and no parent) and/or `add_child` calls
(grafting a fresh well-formed subtree under an existing node), the heap
tree is consistent, and on every consistent heap tree each node `n`
reachable from the root via `walk()` (the heads of the root chains, which
enumerate exactly the walk) satisfies: `n.level` is the number of parent
hops from `n` back to the root, following `n.parent` reaches the root in
exactly `n.level` steps (and in no other number of steps), and `n.path()`
is the sequence of codes from the root down to and including `n`. -/
theorem claim_C4 :
    (∀ (t : ITree) (fuel : Nat) (h : Heap) (d0 : NodeData),
      shapeOK h t = true → t.ids.Nodup → t.height ≤ fuel →
      h t.topId = some d0 → d0.level = 0 → d0.parent = none →
      consistentOn (postInitH fuel h t.topId) t ∧
        shapeOK (postInitH fuel h t.topId) t = true) ∧
    (∀ (t tc : ITree) (fuel : Nat) (h : Heap) (j : Nat),
      consistentOn h t → shapeOK h t = true → t.ids.Nodup →
      shapeOK h tc = true → tc.ids.Nodup →
      (∀ a ∈ tc.ids, a ∉ t.ids) → j ∈ t.ids → tc.height ≤ fuel →
      consistentOn (add_childH fuel h j tc.topId) (graft t j tc) ∧
        shapeOK (add_childH fuel h j tc.topId) (graft t j tc) = true ∧
        (graft t j tc).ids.Nodup) ∧
    (∀ (t : ITree) (H : Heap) (fuel : Nat),
      consistentOn H t → shapeOK H t = true → t.height ≤ fuel →
      walkH fuel H t.topId = t.ids ∧
      (∀ j ∈ t.ids, ∃ c ∈ chainsFrom t [], c.headI = j) ∧
      (∀ c ∈ chainsFrom t [],
        levelOfH H c.headI = c.length - 1 ∧
        iterParentH H (c.length - 1) c.headI = some t.topId ∧
        (∀ k, iterParentH H k c.headI = some t.topId → k = c.length - 1) ∧
        pathH fuel H c.headI = (c.map (codeOfH H)).reverse)) :=
  ⟨fun t fuel h d0 => postInit_consistent t fuel h d0,
   fun t tc fuel h j => add_child_consistent t tc fuel h j,
   fun t H fuel => consistent_conclusions t H fuel⟩

theorem claim_C4_witness :
    walkH 2 cycleHeap 0 = [0, 1] ∧
    levelOfH cycleHeap 1 = 1 ∧
    iterParentH cycleHeap 1 1 = some 0 ∧
    pathH 2 cycleHeap 1 = ["R", "C"] ∧
    consistentOn (postInitH 2 (fun j => if j = 0 then
        some ⟨"Root", "R", [], [1], "", 0, none⟩
      else if j = 1 then some ⟨"Child", "C", [], [], "", 5, some 9⟩
      else none) 0) (.node 0 [.node 1 []]) ∧
    consistentOn (add_childH 1 (fun j => if j = 7 then
        some ⟨"New", "N", [], [], "", 9, none⟩
      else cycleHeap j) 1 7) (graft (.node 0 [.node 1 []]) 1
      (.node 7 [])) := by
  have h3 := (claim_C4.2.2 (.node 0 [.node 1 []]) cycleHeap 2 (by decide)
    (by decide) (by decide))
  have hchain := h3.2.2 [1, 0] (by decide)
  refine ⟨h3.1.trans (by decide), ?_, ?_, ?_, ?_, ?_⟩
  · have := hchain.1
    simpa using this
  · have := hchain.2.1
    simpa using this
  · exact (show pathH 2 cycleHeap 1 =
      (List.map (codeOfH cycleHeap) [1, 0]).reverse from hchain.2.2.2).trans
      (by decide)
  · exact ((claim_C4.1 (.node 0 [.node 1 []]) 2 _
      ⟨"Root", "R", [], [1], "", 0, none⟩ (by decide) (by decide) (by decide)
      rfl rfl rfl).1)
  · exact (claim_C4.2.1 (.node 0 [.node 1 []]) (.node 7 []) 1
      (fun j => if j = 7 then some ⟨"New", "N", [], [], "", 9, none⟩
        else cycleHeap j) 1 (by decide) (by decide) (by decide) (by decide)
      (by decide) (by decide) (by decide) (by decide)).1

end MacroEcon
